import Mathlib

/-!
# Verification of the smart-object-utils core

A shallow embedding of the repository's core: the type predicates
(`src/core/types.js`), the path utilities (`src/core/utils.js`), the clone
strategies (`src/strategies/*.js`), the clone engine (`src/core/deepClone.js`)
and the mutation engine (`src/updates/updateNested.js`).

JavaScript values are modelled as a universal value type over an explicit
heap: primitives are immutable leaves, every object (plain object, array,
Date, RegExp) lives at a numeric address, and object identity (`===`) is
address equality.  Numbers are modelled as integers (every number appearing
in the claims is integral).  A plain-object node records its own enumerable
string-keyed properties in insertion order, and additionally its prototype
tag, its symbol-keyed properties and its own non-enumerable properties, so
that what `for...in` + `hasOwnProperty` sees (exactly the enumerable string
keyed own properties) is distinguishable from what it does not see.

All recursive algorithms of the source can diverge on cyclic inputs unless
they carry a visited structure, so every embedded algorithm takes explicit
fuel and returns `none` when the fuel runs out; `some` results are the
values the JavaScript functions actually return.  Fuel is consumed at every
recursive step (including steps along a list of children), so the functions
are structurally recursive on fuel and reduce inside the kernel.
-/

/-- JavaScript primitive values (`Types.isPrimitive` is true exactly on
these): `undefined`, `null`, booleans, (integral) numbers and strings.
Symbols and bigints play no role in any claim and are omitted; functions
are not primitives in the source and are likewise not needed. -/
inductive Prim where
  | undef : Prim
  | null : Prim
  | bool : Bool → Prim
  | num : Int → Prim
  | str : String → Prim
deriving DecidableEq

/-- A JavaScript value: a primitive, or a reference to a heap object.
Reference equality (`===`) on objects is equality of addresses. -/
inductive Val where
  | prim : Prim → Val
  | ref : Nat → Val
deriving DecidableEq

/-- Prototype marker of a plain-object node: `plain` is `Object.prototype`
(what `{}` and object-literal allocation produce), `custom n` marks an
object whose class/prototype is anything else. The tag is inert data: no
embedded operation reads it, mirroring that the source never inspects
prototypes. -/
inductive ProtoTag where
  | plain : ProtoTag
  | custom : Nat → ProtoTag
deriving DecidableEq

/-- A heap node: a plain object (prototype tag, own enumerable string-keyed
properties in insertion order, symbol-keyed properties, own non-enumerable
properties), an array, a Date (tick count) or a RegExp (source and flags). -/
inductive Node where
  | obj : ProtoTag → List (String × Val) → List (Nat × Val) → List (String × Val) → Node
  | arr : List Val → Node
  | date : Int → Node
  | regexp : String → String → Node
deriving DecidableEq

/-- First-match association-list lookup (JS property read on our
insertion-ordered property lists; also used for the clone identity map). -/
def lookupA {α β : Type} [DecidableEq α] : List (α × β) → α → Option β
  | [], _ => none
  | (k, v) :: rest, key => if k = key then some v else lookupA rest key

/-- JS property assignment `o[k] = v` on an insertion-ordered property
list: overwrite in place if the key exists, otherwise append at the end. -/
def updateA {α β : Type} [DecidableEq α] : List (α × β) → α → β → List (α × β)
  | [], key, v => [(key, v)]
  | (k, w) :: rest, key, v =>
    if k = key then (k, v) :: rest else (k, w) :: updateA rest key v

/-- The heap: an allocation counter and a store of allocated nodes.
Addresses below `next` are the allocated ones; `alloc` hands out `next`. -/
structure Heap where
  next : Nat
  mem : List (Nat × Node)
deriving DecidableEq

/-- Node stored at an address. -/
def Heap.lookup (h : Heap) (a : Nat) : Option Node :=
  lookupA h.mem a

/-- Overwrite the node stored at an (existing) address. -/
def Heap.set (h : Heap) (a : Nat) (n : Node) : Heap :=
  ⟨h.next, updateA h.mem a n⟩

/-- Allocate a fresh node, returning its address. -/
def Heap.alloc (h : Heap) (n : Node) : Nat × Heap :=
  (h.next, ⟨h.next + 1, (h.next, n) :: h.mem⟩)

/-- The allocated addresses. -/
def Heap.dom (h : Heap) : List Nat :=
  h.mem.map Prod.fst

/-- Basic well-formedness: the stored addresses are distinct and below the
allocation counter.  Every heap built by the embedded operations from a
well-formed heap stays well-formed. -/
def Heap.WF (h : Heap) : Prop :=
  h.dom.Nodup ∧ ∀ p ∈ h.mem, p.1 < h.next

instance (h : Heap) : Decidable h.WF := by
  unfold Heap.WF; infer_instance

/-- The child values an embedded traversal can reach from a node: the
enumerable string-keyed own property values of a plain object (what
`for...in` + `hasOwnProperty` iterates), or the elements of an array.
Dates and RegExps have no enumerable own properties. -/
def Node.children : Node → List Val
  | .obj _ props _ _ => props.map Prod.snd
  | .arr es => es
  | .date _ => []
  | .regexp _ _ => []

/-- Every value stored anywhere in a node, including symbol-keyed and
non-enumerable properties (used for closure side conditions). -/
def Node.allVals : Node → List Val
  | .obj _ props sym hidden =>
      props.map Prod.snd ++ sym.map Prod.snd ++ hidden.map Prod.snd
  | .arr es => es
  | .date _ => []
  | .regexp _ _ => []

/-- The address a value refers to, if any. -/
def Val.refAddr : Val → Option Nat
  | .prim _ => none
  | .ref a => some a

/-- A value is either a primitive or a reference to an allocated address. -/
def Heap.valClosed (h : Heap) : Val → Bool
  | .prim _ => true
  | .ref a => (h.lookup a).isSome

/-- All reference targets of a node's stored values lie in the heap's
domain (no dangling references), for the values listed by `f`. -/
def Heap.ClosedUnder (h : Heap) (f : Node → List Val) : Prop :=
  ∀ p ∈ h.mem, ∀ v ∈ f p.2, h.valClosed v = true

/-- No dangling references anywhere in the heap. -/
def Heap.Closed (h : Heap) : Prop :=
  h.ClosedUnder Node.allVals

instance (h : Heap) : Decidable h.Closed := by
  unfold Heap.Closed Heap.ClosedUnder
  infer_instance

namespace Types

/-- `Types.isPrimitive` (src/core/types.js): `value == null || (typeof value
!== 'object' && typeof value !== 'function')`.  On the modelled value space
this is exactly "is not an object reference". -/
def isPrimitive : Val → Bool
  | .prim _ => true
  | .ref _ => false

end Types

/-- Task for the recursive-clone worker: clone one value, a list of array
elements, or a property list, with the current identity map (`seen`). -/
inductive CloneArg where
  | one : Val → List (Nat × Nat) → CloneArg
  | many : List Val → List (Nat × Nat) → CloneArg
  | props : List (String × Val) → List (Nat × Nat) → CloneArg

/-- Result of a clone task, mirroring the three task shapes. -/
inductive CloneRes where
  | one : Val → Heap → List (Nat × Nat) → CloneRes
  | many : List Val → Heap → List (Nat × Nat) → CloneRes
  | props : List (String × Val) → Heap → List (Nat × Nat) → CloneRes

/-- `RecursiveStrategy.clone(obj, seen)` (src/strategies/recursiveStrategy.js),
as a single fuel-indexed worker.  Step order follows the source: primitives
returned as-is, then the `seen` lookup (before any allocation), then Date,
then RegExp, then arrays, then the generic object case (`for...in` +
`hasOwnProperty`, i.e. own enumerable string-keyed properties; the clone is
a fresh `{}`: plain prototype, no symbol-keyed and no non-enumerable
properties).  `Map`/`Set` handling in the source is not exercised by any
claim and those node kinds are not part of the model.  The container cases
allocate the empty clone and register it in `seen` *before* recursing into
children, exactly as the source does; children then update the allocated
node in place. -/
def cloneAux : Nat → Heap → CloneArg → Option CloneRes
  | 0, _, _ => none
  | _ + 1, h, .one (.prim p) seen => some (.one (.prim p) h seen)
  | fuel + 1, h, .one (.ref a) seen =>
    match lookupA seen a with
    | some b => some (.one (.ref b) h seen)
    | none =>
      match h.lookup a with
      | none => none
      | some (.date t) =>
        let (b, h1) := h.alloc (.date t)
        some (.one (.ref b) h1 seen)
      | some (.regexp src flags) =>
        let (b, h1) := h.alloc (.regexp src flags)
        some (.one (.ref b) h1 seen)
      | some (.arr es) =>
        let (b, h1) := h.alloc (.arr [])
        match cloneAux fuel h1 (.many es ((a, b) :: seen)) with
        | some (.many es2 h2 seen2) => some (.one (.ref b) (h2.set b (.arr es2)) seen2)
        | _ => none
      | some (.obj _ props _ _) =>
        let (b, h1) := h.alloc (.obj .plain [] [] [])
        match cloneAux fuel h1 (.props props ((a, b) :: seen)) with
        | some (.props ps2 h2 seen2) =>
          some (.one (.ref b) (h2.set b (.obj .plain ps2 [] [])) seen2)
        | _ => none
  | _ + 1, h, .many [] seen => some (.many [] h seen)
  | fuel + 1, h, .many (v :: vs) seen =>
    match cloneAux fuel h (.one v seen) with
    | some (.one v2 h1 seen1) =>
      match cloneAux fuel h1 (.many vs seen1) with
      | some (.many vs2 h2 seen2) => some (.many (v2 :: vs2) h2 seen2)
      | _ => none
    | _ => none
  | _ + 1, h, .props [] seen => some (.props [] h seen)
  | fuel + 1, h, .props ((k, v) :: ps) seen =>
    match cloneAux fuel h (.one v seen) with
    | some (.one v2 h1 seen1) =>
      match cloneAux fuel h1 (.props ps seen1) with
      | some (.props ps2 h2 seen2) => some (.props ((k, v2) :: ps2) h2 seen2)
      | _ => none
    | _ => none

namespace RecursiveStrategy

/-- `RecursiveStrategy.clone` on a single value: the entry point the engine
calls (with a fresh identity map). -/
def clone (fuel : Nat) (h : Heap) (v : Val) (seen : List (Nat × Nat)) :
    Option (Val × Heap × List (Nat × Nat)) :=
  match cloneAux fuel h (.one v seen) with
  | some (.one v2 h2 seen2) => some (v2, h2, seen2)
  | _ => none

/-- `RecursiveStrategy.canHandle()` always reports true. -/
def canHandle : Bool := true

end RecursiveStrategy

/-- Task for `Types.isCircular`: one value, or the remaining children of a
node being scanned. -/
inductive CircArg where
  | one : Val → CircArg
  | many : List Val → CircArg

/-- `Types.isCircular(obj, seen)` (src/core/types.js).  The visited set is a
single `WeakSet` shared by the whole traversal (the recursive calls pass the
same set), so it is threaded through children and never shrinks; objects are
added on first visit and a revisit anywhere in the traversal returns true.
`for...in` + `hasOwnProperty` gives `Node.children`.  Returns the final
visited set alongside the answer so the threading is explicit. -/
def isCircularAux : Nat → Heap → CircArg → List Nat → Option (Bool × List Nat)
  | 0, _, _, _ => none
  | _ + 1, _, .one (.prim _), seen => some (false, seen)
  | fuel + 1, h, .one (.ref a), seen =>
    if a ∈ seen then some (true, seen)
    else
      match h.lookup a with
      | none => none
      | some nd => isCircularAux fuel h (.many nd.children) (a :: seen)
  | _ + 1, _, .many [], seen => some (false, seen)
  | fuel + 1, h, .many (v :: vs), seen =>
    match isCircularAux fuel h (.one v) seen with
    | some (true, s1) => some (true, s1)
    | some (false, s1) => isCircularAux fuel h (.many vs) s1
    | none => none

namespace Types

/-- `Types.isCircular(obj)` with the default fresh visited set. -/
def isCircular (fuel : Nat) (h : Heap) (v : Val) : Option Bool :=
  (isCircularAux fuel h (.one v) []).map Prod.fst

end Types

/-- A JSON value: what `JSON.stringify`/`JSON.parse` round-trips through. -/
inductive JVal where
  | jnull : JVal
  | jbool : Bool → JVal
  | jnum : Int → JVal
  | jstr : String → JVal
  | jarr : List JVal → JVal
  | jobj : List (String × JVal) → JVal

/-- The string `Date.prototype.toJSON` produces for a tick count.  Only its
injectivity in the tick count and its being a plain string matter; the
exact ISO-8601 spelling is irrelevant to every claim. -/
def dateToJson (t : Int) : String :=
  "iso:" ++ toString t

/-- Task for the `JSON.stringify` view: one value, array elements, or
object properties. -/
inductive JsonArg where
  | one : Val → JsonArg
  | many : List Val → JsonArg
  | props : List (String × Val) → JsonArg

/-- Result of a stringify task.  In the `one` shape, `none` means the value
is omitted by serialization (`undefined`, which `JSON.stringify` drops from
objects, turns into `null` inside arrays, and maps to the non-string
`undefined` at the root). -/
inductive JsonRes where
  | one : Option JVal → JsonRes
  | many : List JVal → JsonRes
  | props : List (String × JVal) → JsonRes

/-- The `JSON.stringify`-then-`JSON.parse` view of a value, as the JSON
tree the round-trip denotes: `undefined` is dropped from objects and
becomes `null` in arrays, Dates serialize to strings via `toJSON`, RegExps
serialize to empty objects, and only own enumerable string-keyed
properties are visited.  A cyclic value makes `JSON.stringify` throw; in
the model a cycle simply exhausts the fuel (`none`), and no claim
evaluates the JSON strategy on a cyclic value. -/
def jsonViewAux : Nat → Heap → JsonArg → Option JsonRes
  | 0, _, _ => none
  | _ + 1, _, .one (.prim .undef) => some (.one none)
  | _ + 1, _, .one (.prim .null) => some (.one (some .jnull))
  | _ + 1, _, .one (.prim (.bool b)) => some (.one (some (.jbool b)))
  | _ + 1, _, .one (.prim (.num n)) => some (.one (some (.jnum n)))
  | _ + 1, _, .one (.prim (.str s)) => some (.one (some (.jstr s)))
  | fuel + 1, h, .one (.ref a) =>
    match h.lookup a with
    | none => none
    | some (.date t) => some (.one (some (.jstr (dateToJson t))))
    | some (.regexp _ _) => some (.one (some (.jobj [])))
    | some (.arr es) =>
      match jsonViewAux fuel h (.many es) with
      | some (.many js) => some (.one (some (.jarr js)))
      | _ => none
    | some (.obj _ props _ _) =>
      match jsonViewAux fuel h (.props props) with
      | some (.props jps) => some (.one (some (.jobj jps)))
      | _ => none
  | _ + 1, _, .many [] => some (.many [])
  | fuel + 1, h, .many (v :: vs) =>
    match jsonViewAux fuel h (.one v) with
    | some (.one jv) =>
      match jsonViewAux fuel h (.many vs) with
      | some (.many js) => some (.many (jv.getD .jnull :: js))
      | _ => none
    | _ => none
  | _ + 1, _, .props [] => some (.props [])
  | fuel + 1, h, .props ((k, v) :: ps) =>
    match jsonViewAux fuel h (.one v) with
    | some (.one jv) =>
      match jsonViewAux fuel h (.props ps) with
      | some (.props jps) =>
        some (.props (match jv with | some j => (k, j) :: jps | none => jps))
      | _ => none
    | _ => none

/-- Task for allocating a parsed JSON tree into the heap (`JSON.parse`). -/
inductive JAllocArg where
  | one : JVal → JAllocArg
  | many : List JVal → JAllocArg
  | props : List (String × JVal) → JAllocArg

/-- Result of a JSON allocation task. -/
inductive JAllocRes where
  | one : Val → Heap → JAllocRes
  | many : List Val → Heap → JAllocRes
  | props : List (String × Val) → Heap → JAllocRes

/-- Allocates the object graph `JSON.parse` builds for a JSON tree: a tree
of fresh plain objects and arrays over primitives. -/
def jsonAllocAux : Nat → Heap → JAllocArg → Option JAllocRes
  | 0, _, _ => none
  | _ + 1, h, .one .jnull => some (.one (.prim .null) h)
  | _ + 1, h, .one (.jbool b) => some (.one (.prim (.bool b)) h)
  | _ + 1, h, .one (.jnum n) => some (.one (.prim (.num n)) h)
  | _ + 1, h, .one (.jstr s) => some (.one (.prim (.str s)) h)
  | fuel + 1, h, .one (.jarr js) =>
    match jsonAllocAux fuel h (.many js) with
    | some (.many vs h1) =>
      let (b, h2) := h1.alloc (.arr vs)
      some (.one (.ref b) h2)
    | _ => none
  | fuel + 1, h, .one (.jobj jps) =>
    match jsonAllocAux fuel h (.props jps) with
    | some (.props ps h1) =>
      let (b, h2) := h1.alloc (.obj .plain ps [] [])
      some (.one (.ref b) h2)
    | _ => none
  | _ + 1, h, .many [] => some (.many [] h)
  | fuel + 1, h, .many (j :: js) =>
    match jsonAllocAux fuel h (.one j) with
    | some (.one v h1) =>
      match jsonAllocAux fuel h1 (.many js) with
      | some (.many vs h2) => some (.many (v :: vs) h2)
      | _ => none
    | _ => none
  | _ + 1, h, .props [] => some (.props [] h)
  | fuel + 1, h, .props ((k, j) :: jps) =>
    match jsonAllocAux fuel h (.one j) with
    | some (.one v h1) =>
      match jsonAllocAux fuel h1 (.props jps) with
      | some (.props ps h2) => some (.props ((k, v) :: ps) h2)
      | _ => none
    | _ => none

namespace JsonStrategy

/-- `JsonStrategy.canHandle(obj)` (src/strategies/jsonStrategy.js): probes
`JSON.stringify` under try/catch.  On the modelled fragment stringify never
throws on terminating inputs (`BigInt` is not modelled and a cycle exhausts
fuel), so a completed probe reports true. -/
def canHandle (fuel : Nat) (h : Heap) (v : Val) : Option Bool :=
  (jsonViewAux fuel h (.one v)).map (fun _ => true)

/-- `JsonStrategy.clone(obj)`: re-checks `canHandle` (throwing if false),
then `JSON.parse(JSON.stringify(obj))`.  `none` is fuel exhaustion or a
throw (the only modelled throw: a root that stringifies to `undefined`,
which makes `JSON.parse` raise a syntax error). -/
def clone (fuel : Nat) (h : Heap) (v : Val) : Option (Val × Heap) :=
  match jsonViewAux fuel h (.one v) with
  | some (.one (some jv)) =>
    match jsonAllocAux fuel h (.one jv) with
    | some (.one v2 h2) => some (v2, h2)
    | _ => none
  | _ => none

end JsonStrategy

namespace StructuredStrategy

/-- `StructuredStrategy.canHandle()` (src/strategies/structuredStrategy.js):
`typeof structuredClone !== 'undefined'`, i.e. whether the host provides
the native structural-clone primitive.  `env` is that host capability. -/
def canHandle (env : Bool) : Bool := env

/-- `StructuredStrategy.clone(obj)`: throws when the primitive is absent
(`none`), otherwise delegates to native `structuredClone`; on the modelled
fragment (no callables, no symbol atoms, nodes are plain objects, arrays,
Dates and RegExps) the native primitive's result graph coincides with the
recursive graph clone: sharing and cycles preserved, Dates/RegExps cloned
by value, plain objects rebuilt from own enumerable string-keyed
properties.  No claim's theorem evaluates this function in an environment
where the primitive exists. -/
def clone (env : Bool) (fuel : Nat) (h : Heap) (v : Val) : Option (Val × Heap) :=
  if env then
    match RecursiveStrategy.clone fuel h v [] with
    | some (v2, h2, _) => some (v2, h2)
    | none => none
  else none

end StructuredStrategy

/-- The strategy names `deepClone` accepts.  An unrecognized name throws
`Unknown strategy` in the source; the enumeration makes that branch
unrepresentable. -/
inductive Strategy where
  | auto : Strategy
  | json : Strategy
  | structured : Strategy
  | recursive : Strategy
deriving DecidableEq

/-- Options of `deepClone` (src/core/deepClone.js): strategy (default
`auto`), maxDepth (default `Infinity`, modelled as `none`) and the internal
currentDepth (default 0). -/
structure CloneOptions where
  strategy : Strategy
  maxDepth : Option Nat
  currentDepth : Nat

/-- The default options `{}`. -/
def CloneOptions.default : CloneOptions :=
  ⟨.auto, none, 0⟩

/-- The part of `deepClone` after the depth cutoff: the primitive
early-return, then strategy dispatch.  In `auto` mode the source iterates
`STRATEGIES = [StructuredStrategy, JsonStrategy, RecursiveStrategy]`
evaluating each `canHandle`, but the loop body only `continue`s — no
strategy is invoked and nothing of the scan is retained (the probes are
effect-free) — so control always falls through to
`return RecursiveStrategy.clone(obj)`. -/
def deepCloneBelowCutoff (env : Bool) (fuel : Nat) (h : Heap) (v : Val)
    (strategy : Strategy) : Option (Val × Heap) :=
  if Types.isPrimitive v then some (v, h)
  else
    match strategy with
    | .json => JsonStrategy.clone fuel h v
    | .structured => StructuredStrategy.clone env fuel h v
    | .recursive =>
      match RecursiveStrategy.clone fuel h v [] with
      | some (v2, h2, _) => some (v2, h2)
      | none => none
    | .auto =>
      let _deadScan := (StructuredStrategy.canHandle env,
        JsonStrategy.canHandle fuel h v)
      match RecursiveStrategy.clone fuel h v [] with
      | some (v2, h2, _) => some (v2, h2)
      | none => none

/-- `deepClone(obj, options)` (src/core/deepClone.js).  Order of checks as
in the source: the depth cutoff (`currentDepth >= maxDepth` returns the
value itself by reference, `Infinity` never cuts off), then
`deepCloneBelowCutoff`. -/
def deepClone (env : Bool) (fuel : Nat) (h : Heap) (v : Val)
    (options : CloneOptions) : Option (Val × Heap) :=
  match options.maxDepth with
  | some m =>
    if options.currentDepth ≥ m then some (v, h)
    else deepCloneBelowCutoff env fuel h v options.strategy
  | none => deepCloneBelowCutoff env fuel h v options.strategy

namespace Utils

/-- A path argument: a dotted string or an already-split segment list. -/
inductive PathArg where
  | str : String → PathArg
  | list : List String → PathArg

/-- JS `String.prototype.split('.')` on the underlying character list:
cut at every dot, keeping empty segments (so `''` yields `['']` and
`'...'` yields four empty segments), exactly as the host primitive does. -/
def splitDots : List Char → List Char → List String
  | [], acc => [String.mk acc.reverse]
  | c :: rest, acc =>
    if c = '.' then String.mk acc.reverse :: splitDots rest []
    else splitDots rest (c :: acc)

/-- `Utils.parsePath(path)` (src/core/utils.js): arrays pass through,
strings are split on `.` with empty segments filtered out
(`path.split('.').filter(Boolean)`; `Boolean` is false exactly on the
empty segment). -/
def parsePath : PathArg → List String
  | .list segs => segs
  | .str s => (splitDots s.data []).filter (fun seg => seg ≠ "")

/-- The JS property read `current[key]` as `Utils.getPath`'s walk performs
it, for a value already known to be an object reference: a missing key
reads as `undefined`.  Only own enumerable string-keyed properties are
modelled as readable (no claim reads an inherited, symbol-keyed,
non-enumerable, or array-index property through a path). -/
def walkRead (h : Heap) (a : Nat) (key : String) : Val :=
  match h.lookup a with
  | some (.obj _ props _ _) => (lookupA props key).getD (.prim .undef)
  | _ => (.prim .undef)

/-- The key-walking loop of `Utils.getPath`: at each key, any value that is
not an object reference (falsy, or `typeof !== 'object'` — on the model:
any primitive) aborts with the default; at the end, `undefined` is replaced
by the default. -/
def getPathGo (h : Heap) : Val → List String → Val → Val
  | current, [], dflt => if current = .prim .undef then dflt else current
  | .prim _, _ :: _, dflt => dflt
  | .ref a, key :: rest, dflt => getPathGo h (walkRead h a key) rest dflt

/-- `Utils.getPath(obj, path, defaultValue)` (src/core/utils.js). -/
def getPath (h : Heap) (obj : Val) (path : PathArg) (dflt : Val) : Val :=
  getPathGo h obj (parsePath path) dflt

/-- The JS property assignment `current[key] = v` on the walk's current
value: defined when the value references a plain-object node (the only
shape the claims drive it into; assigning onto a primitive throws in strict
mode, and array/Date/RegExp expando assignment is not modelled). -/
def assignProp (h : Heap) (current : Val) (key : String) (v : Val) :
    Option Heap :=
  match current with
  | .ref a =>
    match h.lookup a with
    | some (.obj pr props sym hid) =>
      some (h.set a (.obj pr (updateA props key v) sym hid))
    | _ => none
  | .prim _ => none

/-- `assignProp` together with the address written to (the ghost trace
used to state the claims about `setPath`; the heap component is the
source's behavior). -/
def assignPropT (h : Heap) (current : Val) (key : String) (v : Val) :
    Option (Heap × List Nat) :=
  match current with
  | .ref a =>
    match h.lookup a with
    | some (.obj pr props sym hid) =>
      some (h.set a (.obj pr (updateA props key v) sym hid), [a])
    | _ => none
  | .prim _ => none

/-- The navigation-and-assignment body of `Utils.setPath`: for every key
except the last, if `current[key]` is missing or not an object
(`!current[key] || typeof current[key] !== 'object'`) it is replaced by a
fresh `{}`, then the walk descends; the last key receives the value.  With
no keys at all, the source evaluates `keys[keys.length - 1]` to
`undefined` and assigns under the property key `"undefined"` (JS coerces
the key to that string).  Alongside the source's heap effect, the list of
container addresses the loop wrote to or descended through is returned as
a ghost trace (in walk order), so that the aliasing behavior of the walk
can be stated; the source computes only the heap component. -/
def setPathNavT (h : Heap) : Val → List String → Val → Option (Heap × List Nat)
  | current, [], v => assignPropT h current "undefined" v
  | current, [k], v => assignPropT h current k v
  | current, k :: k2 :: rest, v =>
    match current with
    | .prim _ => none
    | .ref a =>
      match h.lookup a with
      | some (.obj pr props sym hid) =>
        match lookupA props k with
        | some (.ref c) =>
          match setPathNavT h (.ref c) (k2 :: rest) v with
          | some (h2, vis) => some (h2, a :: vis)
          | none => none
        | _ =>
          let (m, h1) := h.alloc (.obj .plain [] [] [])
          let h2 := h1.set a (.obj pr (updateA props k (.ref m)) sym hid)
          match setPathNavT h2 (.ref m) (k2 :: rest) v with
          | some (h3, vis) => some (h3, a :: vis)
          | none => none
      | _ => none

/-- The heap effect of the `setPath` walk (what the source computes). -/
def setPathNav (h : Heap) (current : Val) (keys : List String) (v : Val) :
    Option Heap :=
  (setPathNavT h current keys v).map Prod.fst

/-- `Utils.setPath(obj, path, value)` (src/core/utils.js): mutates `obj` in
place and returns the same reference. -/
def setPath (h : Heap) (obj : Val) (path : PathArg) (v : Val) :
    Option (Val × Heap) :=
  match setPathNav h obj (parsePath path) v with
  | some h2 => some (obj, h2)
  | none => none

end Utils

/-- `updateNested(obj, path, value, options)`
(src/updates/updateNested.js): clone unless `options.clone === false`
(through `deepClone` with default options, hence auto strategy and no depth
cutoff), then `Utils.setPath` on the result. -/
def updateNested (env : Bool) (fuel : Nat) (h : Heap) (obj : Val)
    (path : Utils.PathArg) (value : Val) (shouldClone : Bool) :
    Option (Val × Heap) :=
  match (if shouldClone then deepClone env fuel h obj CloneOptions.default
         else some (obj, h)) with
  | none => none
  | some (result, h1) => Utils.setPath h1 result path value

/-- The update loop of `updateMultiple`: applies `Utils.setPath` to the
same result object for every path/value entry, in list (= insertion)
order; the loop ignores `setPath`'s return value and keeps the same result
reference. -/
def applyUpdates (h : Heap) (result : Val) :
    List (String × Val) → Option (Val × Heap)
  | [] => some (result, h)
  | (p, v) :: rest =>
    match Utils.setPath h result (.str p) v with
    | some (_, h1) => applyUpdates h1 result rest
    | none => none

/-- `updateMultiple(obj, updates, options)` (src/updates/updateNested.js):
one clone (unless `options.clone === false`), then every update applied to
that single clone in the iteration order of `updates` (`Object.entries`
order, modelled by the list order). -/
def updateMultiple (env : Bool) (fuel : Nat) (h : Heap) (obj : Val)
    (updates : List (String × Val)) (shouldClone : Bool) :
    Option (Val × Heap) :=
  match (if shouldClone then deepClone env fuel h obj CloneOptions.default
         else some (obj, h)) with
  | none => none
  | some (result, h1) => applyUpdates h1 result updates

/-- The array-merge policy of `deepMerge`: `replace` (default) or `merge`. -/
inductive ArrayStrategy where
  | replace : ArrayStrategy
  | merge : ArrayStrategy
deriving DecidableEq

/-- The JS read `dest[key]` inside `mergeRecursive` (dest is always a
reference into the already-cloned accumulator). -/
def mergeRead (h : Heap) (dest : Val) (key : String) : Val :=
  match dest with
  | .ref a =>
    match h.lookup a with
    | some (.obj _ props _ _) => (lookupA props key).getD (.prim .undef)
    | _ => .prim .undef
  | .prim _ => (.prim .undef)

/-- The own enumerable string-keyed properties `for...in` +
`hasOwnProperty` yields on a merge source.  The merge claims only ever
place plain objects at merge recursion points (the source guards array,
Date and RegExp values into non-recursive branches before recursing), and
Dates/RegExps/primitives genuinely have no own enumerable properties;
`for...in` over an array (index keys) is not exercised by any claim and
not modelled. -/
def mergeSrcProps (h : Heap) : Val → List (String × Val)
  | .ref s =>
    match h.lookup s with
    | some (.obj _ props _ _) => props
    | _ => []
  | .prim _ => []

/-- Task for `mergeRecursive`: merge a source value into a destination, or
fold the remaining source properties into a destination. -/
inductive MergeArg where
  | into : Val → Val → MergeArg
  | fold : Val → List (String × Val) → MergeArg

/-- `mergeRecursive(dest, src)`, the inner worker of `deepMerge`
(src/updates/updateNested.js), parameterized by the array strategy.  Per
source key, in order: (1) if the source value is an array — under `merge`
with an array already at the destination key, a *new* array is allocated
holding the destination elements followed by the source elements (the
spread copies element references, it does not clone elements); otherwise
the destination key is set to `deepClone` of the source array; (2) else if
it is a non-null object other than Date/RegExp — the destination key is
first replaced by a fresh `{}` when it does not currently hold an object,
then the merge recurses into the pair; (3) otherwise (primitives, `null`,
`undefined`, and crucially Date and RegExp) — the source value is assigned
*directly*, `dest[key] = src[key]`, copying the reference. -/
def mergeAux (env : Bool) (strat : ArrayStrategy) :
    Nat → Heap → MergeArg → Option Heap
  | 0, _, _ => none
  | fuel + 1, h, .into dest src => mergeAux env strat fuel h (.fold dest (mergeSrcProps h src))
  | _ + 1, h, .fold _ [] => some h
  | fuel + 1, h, .fold dest ((k, sv) :: rest) =>
    match sv with
    | .ref s =>
      match h.lookup s with
      | some (.arr srcEls) =>
        -- Array.isArray(src[key])
        match strat, mergeRead h dest k with
        | .merge, .ref d =>
          match h.lookup d with
          | some (.arr destEls) =>
            let (b, h1) := h.alloc (.arr (destEls ++ srcEls))
            match Utils.assignProp h1 dest k (.ref b) with
            | some h2 => mergeAux env strat fuel h2 (.fold dest rest)
            | none => none
          | _ =>
            match deepClone env fuel h (.ref s) CloneOptions.default with
            | some (cv, h1) =>
              match Utils.assignProp h1 dest k cv with
              | some h2 => mergeAux env strat fuel h2 (.fold dest rest)
              | none => none
            | none => none
        | _, _ =>
          match deepClone env fuel h (.ref s) CloneOptions.default with
          | some (cv, h1) =>
            match Utils.assignProp h1 dest k cv with
            | some h2 => mergeAux env strat fuel h2 (.fold dest rest)
            | none => none
          | none => none
      | some (.obj _ _ _ _) =>
        -- src[key] && typeof src[key] === 'object' && not Date && not RegExp
        match mergeRead h dest k with
        | .ref d =>
          match mergeAux env strat fuel h (.into (.ref d) (.ref s)) with
          | some h1 => mergeAux env strat fuel h1 (.fold dest rest)
          | none => none
        | .prim _ =>
          let (m, h1) := h.alloc (.obj .plain [] [] [])
          match Utils.assignProp h1 dest k (.ref m) with
          | some h2 =>
            match mergeAux env strat fuel h2 (.into (.ref m) (.ref s)) with
            | some h3 => mergeAux env strat fuel h3 (.fold dest rest)
            | none => none
          | none => none
      | _ =>
        -- Date, RegExp (and a dangling ref, which cannot occur): direct
        -- reference assignment, dest[key] = src[key]
        match Utils.assignProp h dest k sv with
        | some h1 => mergeAux env strat fuel h1 (.fold dest rest)
        | none => none
    | .prim _ =>
      -- primitives, null, undefined: direct assignment
      match Utils.assignProp h dest k sv with
      | some h1 => mergeAux env strat fuel h1 (.fold dest rest)
      | none => none

/-- `deepMerge(target, source, options)` (src/updates/updateNested.js):
clone the target through `deepClone` with default options, then run
`mergeRecursive(result, source)` and return the (mutated) result. -/
def deepMerge (env : Bool) (fuel : Nat) (h : Heap) (target source : Val)
    (strat : ArrayStrategy) : Option (Val × Heap) :=
  match deepClone env fuel h target CloneOptions.default with
  | some (result, h1) =>
    match mergeAux env strat fuel h1 (.into result source) with
    | some h2 => some (result, h2)
    | none => none
  | none => none

/-- The first-eligible-strategy selection that §4.4 of the specification
prescribes for `auto` mode, written from the spec's words as a comparison
point for `deepClone`'s actual auto path, for an environment *without* the
native structural-clone primitive: StructuralStrategy's `canHandle()` is
false there and the spec says it is skipped, so the first eligible strategy
is SerializationStrategy whenever its probe succeeds, and RecursiveStrategy
otherwise. -/
def specAutoCloneNoStructured (fuel : Nat) (h : Heap) (v : Val) :
    Option (Val × Heap) :=
  match JsonStrategy.canHandle fuel h v with
  | some true => JsonStrategy.clone fuel h v
  | some false =>
    match RecursiveStrategy.clone fuel h v [] with
    | some (v2, h2, _) => some (v2, h2)
    | none => none
  | none => none

/-- One step of a path through the object graph: a named property of a
plain object, or an index of an array. -/
inductive Step where
  | field : String → Step
  | index : Nat → Step
deriving DecidableEq

/-- Follows a path of steps through the heap, reading enumerable own
properties of plain objects and elements of arrays.  This is the
specification-side notion of "the object reachable at a path", used to
state sharing-topology claims; it is not part of the source. -/
def resolve (h : Heap) : Val → List Step → Option Val
  | v, [] => some v
  | .prim _, _ :: _ => none
  | .ref a, s :: p =>
    match h.lookup a, s with
    | some (.obj _ props _ _), .field k =>
      match lookupA props k with
      | some v2 => resolve h v2 p
      | none => none
    | some (.arr es), .index i =>
      match es.get? i with
      | some v2 => resolve h v2 p
      | none => none
    | _, _ => none

/-- Value correspondence along an identity map `μ` (source address →
clone address): primitives correspond to themselves, a reference
corresponds to the reference `μ` assigns it. -/
def mapsVal (μ : List (Nat × Nat)) : Val → Val → Prop
  | .prim p, .prim q => p = q
  | .ref a, .ref b => lookupA μ a = some b
  | .prim _, .ref _ => False
  | .ref _, .prim _ => False

/-- Property lists correspond along `μ` when they have the same keys in
the same order and pointwise-corresponding values. -/
def propsCorr (μ : List (Nat × Nat)) :
    List (String × Val) → List (String × Val) → Prop :=
  List.Forall₂ (fun p q => p.1 = q.1 ∧ mapsVal μ p.2 q.2)

/-- A source container node and its clone correspond along `μ`: a source
object of any prototype/extra-property shape maps to a plain object whose
property list corresponds; a source array maps to an array with
pointwise-corresponding elements.  (Only container nodes take part in the
sharing-topology claims; Dates and RegExps are cloned per occurrence by
the source and deliberately have no entry here.) -/
def nodeCorr (μ : List (Nat × Nat)) : Node → Node → Prop
  | .obj _ props _ _, .obj pr2 props2 sym2 hid2 =>
    pr2 = .plain ∧ sym2 = [] ∧ hid2 = [] ∧ propsCorr μ props props2
  | .arr es, .arr es2 => List.Forall₂ (mapsVal μ) es es2
  | _, _ => False

/-- Container nodes (plain object or array): the sharing-topology claims
are stated for heaps of containers, since the source clones Dates and
RegExps per occurrence rather than through the identity map. -/
def Node.isContainer : Node → Bool
  | .obj _ _ _ _ => true
  | .arr _ => true
  | .date _ => false
  | .regexp _ _ => false

/-- Every node of the heap is a container (see `Node.isContainer`). -/
def Heap.containersOnly (h : Heap) : Prop :=
  ∀ p ∈ h.mem, p.2.isContainer = true

instance (h : Heap) : Decidable h.containersOnly := by
  unfold Heap.containersOnly
  infer_instance

/-- A ranking certificate of acyclicity: every reference stored in a node
points to a strictly smaller rank, so no reference cycle can exist.  Used
to state, decidably, that a concrete counterexample heap is acyclic. -/
def rankedAcyclic (h : Heap) (rank : Nat → Nat) : Prop :=
  ∀ p ∈ h.mem, ∀ v ∈ p.2.allVals, ∀ a, v.refAddr = some a → rank a < rank p.1

instance (h : Heap) (rank : Nat → Nat) : Decidable (rankedAcyclic h rank) := by
  unfold rankedAcyclic
  refine List.decidableBAll _ _

example :
    (rankedAcyclic
      ⟨2, [(0, .obj .plain [("p", .ref 1), ("q", .ref 1)] [] []),
           (1, .obj .plain [("x", .prim (.num 1))] [] [])]⟩
      (fun a => if a = 0 then 1 else 0)) := by decide

example :
    Types.isCircular 10
      ⟨2, [(0, .obj .plain [("p", .ref 1), ("q", .ref 1)] [] []),
           (1, .obj .plain [("x", .prim (.num 1))] [] [])]⟩
      (.ref 0) = some true := rfl

example :
    RecursiveStrategy.clone 10
      ⟨1, [(0, .obj .plain [("a", .prim (.num 1)), ("self", .ref 0)] [] [])]⟩
      (.ref 0) [] =
    some (.ref 1,
      ⟨2, [(1, .obj .plain [("a", .prim (.num 1)), ("self", .ref 1)] [] []),
           (0, .obj .plain [("a", .prim (.num 1)), ("self", .ref 0)] [] [])]⟩,
      [(0, 1)]) := rfl

theorem lookupA_updateA_self {α β : Type} [DecidableEq α]
    (l : List (α × β)) (k : α) (v : β) :
    lookupA (updateA l k v) k = some v := by
  induction l with
  | nil => simp [updateA, lookupA]
  | cons p rest ih =>
    by_cases hk : p.1 = k
    · simp [updateA, hk, lookupA]
    · simp [updateA, hk, lookupA, ih]

theorem lookupA_updateA_ne {α β : Type} [DecidableEq α]
    (l : List (α × β)) (k k2 : α) (v : β) (hne : k ≠ k2) :
    lookupA (updateA l k v) k2 = lookupA l k2 := by
  induction l with
  | nil => simp [updateA, lookupA, hne]
  | cons p rest ih =>
    by_cases hk : p.1 = k
    · simp [updateA, hk, lookupA, hne]
    · simp only [updateA, if_neg hk, lookupA]
      by_cases hk2 : p.1 = k2
      · simp [hk2]
      · simp [hk2, ih]

theorem mem_updateA {α β : Type} [DecidableEq α]
    {l : List (α × β)} {k : α} {v : β} {p : α × β}
    (hp : p ∈ updateA l k v) : p = (k, v) ∨ p ∈ l := by
  induction l with
  | nil =>
    simp only [updateA, List.mem_singleton] at hp
    exact Or.inl hp
  | cons q rest ih =>
    obtain ⟨qk, qw⟩ := q
    by_cases hk : qk = k
    · simp only [updateA, if_pos hk] at hp
      rcases List.mem_cons.mp hp with h1 | h1
      · left; rw [h1, hk]
      · right; exact List.mem_cons_of_mem _ h1
    · simp only [updateA, if_neg hk] at hp
      rcases List.mem_cons.mp hp with h1 | h1
      · right; rw [h1]; exact List.mem_cons_self _ _
      · rcases ih h1 with h2 | h2
        · exact Or.inl h2
        · exact Or.inr (List.mem_cons_of_mem _ h2)

theorem updateA_keys_mem {α β : Type} [DecidableEq α]
    (l : List (α × β)) (k : α) (v : β) (hk : k ∈ l.map Prod.fst) :
    (updateA l k v).map Prod.fst = l.map Prod.fst := by
  induction l with
  | nil => simp at hk
  | cons p rest ih =>
    by_cases hpk : p.1 = k
    · simp [updateA, hpk]
    · have hk2 : k ∈ rest.map Prod.fst := by
        rcases List.mem_map.mp hk with ⟨q, hq, hqk⟩
        rcases List.mem_cons.mp hq with h1 | h1
        · exact absurd (h1 ▸ hqk) hpk
        · exact List.mem_map.mpr ⟨q, h1, hqk⟩
      simp [updateA, hpk, ih hk2]

theorem updateA_keys_not_mem {α β : Type} [DecidableEq α]
    (l : List (α × β)) (k : α) (v : β) (hk : k ∉ l.map Prod.fst) :
    (updateA l k v).map Prod.fst = l.map Prod.fst ++ [k] := by
  induction l with
  | nil => simp [updateA]
  | cons p rest ih =>
    have hpk : p.1 ≠ k := by
      intro he; exact hk (by simp [he])
    have hk2 : k ∉ rest.map Prod.fst := by
      intro hmem; exact hk (by simp [hmem])
    simp [updateA, hpk, ih hk2]

theorem Heap.set_next (h : Heap) (a : Nat) (n : Node) :
    (h.set a n).next = h.next := rfl

theorem Heap.set_lookup_self (h : Heap) (a : Nat) (n : Node) :
    (h.set a n).lookup a = some n :=
  lookupA_updateA_self _ _ _

theorem Heap.set_lookup_ne (h : Heap) (a x : Nat) (n : Node) (hne : a ≠ x) :
    (h.set a n).lookup x = h.lookup x :=
  lookupA_updateA_ne _ _ _ _ hne

theorem Heap.alloc_next (h : Heap) (n : Node) :
    ((h.alloc n).2).next = h.next + 1 := rfl

theorem Heap.alloc_fst (h : Heap) (n : Node) :
    (h.alloc n).1 = h.next := rfl

theorem Heap.alloc_lookup_self (h : Heap) (n : Node) :
    ((h.alloc n).2).lookup h.next = some n := by
  simp [Heap.alloc, Heap.lookup, lookupA]

theorem Heap.alloc_lookup_ne (h : Heap) (n : Node) (x : Nat)
    (hne : x ≠ h.next) : ((h.alloc n).2).lookup x = h.lookup x := by
  show (if h.next = x then some n else lookupA h.mem x) = lookupA h.mem x
  rw [if_neg (fun he => hne he.symm)]

theorem Heap.WF.set (hwf : Heap.WF h) (hb : b < h.next) :
    (h.set b n).WF := by
  constructor
  · show ((h.set b n).mem.map Prod.fst).Nodup
    show ((updateA h.mem b n).map Prod.fst).Nodup
    by_cases hmem : b ∈ h.dom
    · rw [updateA_keys_mem _ _ _ hmem]
      exact hwf.1
    · rw [updateA_keys_not_mem _ _ _ hmem]
      refine List.Nodup.append hwf.1 (List.nodup_singleton b) ?_
      intro a ha hab
      rw [List.mem_singleton] at hab
      exact hmem (hab ▸ ha)
  · intro p hp
    rcases mem_updateA hp with h1 | h1
    · rw [h1]; exact hb
    · exact hwf.2 p h1

theorem Heap.WF.alloc (hwf : Heap.WF h) : ((h.alloc n).2).WF := by
  constructor
  · refine List.nodup_cons.mpr ⟨?_, hwf.1⟩
    intro hmem
    rcases List.mem_map.mp hmem with ⟨p, hp, hpk⟩
    exact absurd (hpk ▸ hwf.2 p hp) (lt_irrefl _)
  · intro p hp
    rcases List.mem_cons.mp hp with h1 | h1
    · rw [h1]; exact Nat.lt_succ_self _
    · exact Nat.lt_succ_of_lt (hwf.2 p h1)

/-- Identity-map extension: every binding survives. -/
def SeenExt (s s2 : List (Nat × Nat)) : Prop :=
  ∀ a b, lookupA s a = some b → lookupA s2 a = some b

theorem SeenExt.rfl (s : List (Nat × Nat)) : SeenExt s s :=
  fun _ _ hab => hab

theorem SeenExt.trans {s1 s2 s3 : List (Nat × Nat)}
    (h12 : SeenExt s1 s2) (h23 : SeenExt s2 s3) : SeenExt s1 s3 :=
  fun a b hab => h23 a b (h12 a b hab)

theorem SeenExt.cons {s : List (Nat × Nat)} {a b : Nat}
    (ha : lookupA s a = none) : SeenExt s ((a, b) :: s) := by
  intro x y hxy
  have hax : a ≠ x := by
    intro he; rw [he, hxy] at ha; exact Option.noConfusion ha
  simpa [lookupA, hax] using hxy

theorem lookupA_mem {α β : Type} [DecidableEq α]
    {l : List (α × β)} {k : α} {v : β} (hl : lookupA l k = some v) :
    (k, v) ∈ l := by
  induction l with
  | nil => exact absurd hl (by simp [lookupA])
  | cons p rest ih =>
    obtain ⟨p1, p2⟩ := p
    by_cases hk : p1 = k
    · simp only [lookupA, if_pos hk] at hl
      have hv : p2 = v := Option.some_inj.mp hl
      rw [← hk, ← hv]
      exact List.mem_cons_self _ _
    · simp only [lookupA, if_neg hk] at hl
      exact List.mem_cons_of_mem _ (ih hl)

theorem lookupA_eq_none {α β : Type} [DecidableEq α]
    {l : List (α × β)} {k : α} (hk : k ∉ l.map Prod.fst) :
    lookupA l k = (none : Option β) := by
  induction l with
  | nil => simp [lookupA]
  | cons p rest ih =>
    have h1 : p.1 ≠ k := fun he => hk (by simp [he])
    have h2 : k ∉ rest.map Prod.fst := fun hm => hk (by simp [hm])
    simp [lookupA, h1, ih h2]

/-- The identity map carried by a clone task. -/
def CloneArg.seenOf : CloneArg → List (Nat × Nat)
  | .one _ s => s
  | .many _ s => s
  | .props _ s => s

/-- The heap carried by a clone result. -/
def CloneRes.heapOf : CloneRes → Heap
  | .one _ h _ => h
  | .many _ h _ => h
  | .props _ h _ => h

/-- The identity map carried by a clone result. -/
def CloneRes.seenOf : CloneRes → List (Nat × Nat)
  | .one _ _ s => s
  | .many _ _ s => s
  | .props _ _ s => s

/-- A value living in the fresh region: a primitive, or a reference at or
above the watermark `n₀`. -/
def ValHigh (n₀ : Nat) : Val → Prop
  | .prim _ => True
  | .ref b => n₀ ≤ b

/-- All values produced by a clone task live in the fresh region. -/
def ResHigh (n₀ : Nat) : CloneRes → Prop
  | .one v _ _ => ValHigh n₀ v
  | .many vs _ _ => ∀ v ∈ vs, ValHigh n₀ v
  | .props ps _ _ => ∀ p ∈ ps, ValHigh n₀ p.2

/-- Nodes stored at or above the watermark only reference the region at or
above the watermark: the clone never plants references back into the
original object graph (user-supplied values aside). -/
def RegionClosed (n₀ : Nat) (h : Heap) : Prop :=
  ∀ p ∈ h.mem, n₀ ≤ p.1 → ∀ v ∈ p.2.allVals, ValHigh n₀ v

/-- The identity map only targets already-allocated clone addresses in the
fresh region. -/
def SeenHigh (n₀ : Nat) (h : Heap) (s : List (Nat × Nat)) : Prop :=
  ∀ q ∈ s, n₀ ≤ q.2 ∧ q.2 < h.next

/-- Pre-state invariant of a clone task. -/
def PreOK (n₀ : Nat) (h : Heap) (s : List (Nat × Nat)) : Prop :=
  h.WF ∧ n₀ ≤ h.next ∧ SeenHigh n₀ h s ∧ RegionClosed n₀ h

/-- Post-state relation of a clone task: the heap only grew, the pre-state
nodes are untouched, well-formedness and region-closure are maintained,
the identity map only grew and stays inside the fresh region. -/
def FrameOK (n₀ : Nat) (h : Heap) (s : List (Nat × Nat)) (h2 : Heap)
    (s2 : List (Nat × Nat)) : Prop :=
  h.next ≤ h2.next ∧ (∀ x, x < h.next → h2.lookup x = h.lookup x) ∧
  h2.WF ∧ RegionClosed n₀ h2 ∧ SeenHigh n₀ h2 s2 ∧ SeenExt s s2

theorem FrameOK.toPreOK {n₀ : Nat} {h h2 : Heap} {s s2 : List (Nat × Nat)}
    (hpre : PreOK n₀ h s) (hf : FrameOK n₀ h s h2 s2) : PreOK n₀ h2 s2 :=
  ⟨hf.2.2.1, le_trans hpre.2.1 hf.1, hf.2.2.2.2.1, hf.2.2.2.1⟩

theorem FrameOK.refl {n₀ : Nat} {h : Heap} {s : List (Nat × Nat)}
    (hpre : PreOK n₀ h s) : FrameOK n₀ h s h s :=
  ⟨le_refl _, fun _ _ => rfl, hpre.1, hpre.2.2.2, hpre.2.2.1, SeenExt.rfl s⟩

theorem FrameOK.comp {n₀ : Nat} {h h1 h2 : Heap}
    {s s1 s2 : List (Nat × Nat)} (hf1 : FrameOK n₀ h s h1 s1)
    (hf2 : FrameOK n₀ h1 s1 h2 s2) : FrameOK n₀ h s h2 s2 := by
  refine ⟨le_trans hf1.1 hf2.1, ?_, hf2.2.2.1, hf2.2.2.2.1, hf2.2.2.2.2.1,
    SeenExt.trans hf1.2.2.2.2.2 hf2.2.2.2.2.2⟩
  intro x hx
  rw [hf2.2.1 x (lt_of_lt_of_le hx hf1.1), hf1.2.1 x hx]

theorem FrameOK.allocStep {n₀ : Nat} {h : Heap} {s : List (Nat × Nat)}
    {nd : Node} (hpre : PreOK n₀ h s)
    (hnd : ∀ v ∈ nd.allVals, ValHigh n₀ v) :
    FrameOK n₀ h s (h.alloc nd).2 s := by
  refine ⟨Nat.le_succ _, ?_, hpre.1.alloc, ?_, ?_, SeenExt.rfl s⟩
  · intro x hx
    exact Heap.alloc_lookup_ne h nd x (Nat.ne_of_lt hx)
  · intro p hp hp1 v hv
    rcases List.mem_cons.mp hp with h1 | h1
    · rw [h1] at hv; exact hnd v hv
    · exact hpre.2.2.2 p h1 hp1 v hv
  · intro q hq
    exact ⟨(hpre.2.2.1 q hq).1, Nat.lt_succ_of_lt (hpre.2.2.1 q hq).2⟩

theorem FrameOK.setStep {n₀ : Nat} {h h2 : Heap} {s s2 : List (Nat × Nat)}
    {b : Nat} {nd : Node} (hf : FrameOK n₀ h s h2 s2) (hb1 : h.next ≤ b)
    (hb2 : b < h2.next) (hnd : ∀ v ∈ nd.allVals, ValHigh n₀ v) :
    FrameOK n₀ h s (h2.set b nd) s2 := by
  refine ⟨hf.1, ?_, hf.2.2.1.set hb2, ?_, ?_, hf.2.2.2.2.2⟩
  · intro x hx
    rw [Heap.set_lookup_ne h2 b x nd (Nat.ne_of_gt (lt_of_lt_of_le hx hb1))]
    exact hf.2.1 x hx
  · intro p hp hp1 v hv
    rcases mem_updateA hp with h1 | h1
    · rw [h1] at hv; exact hnd v hv
    · exact hf.2.2.2.1 p h1 hp1 v hv
  · intro q hq
    exact hf.2.2.2.2.1 q hq

theorem FrameOK.seenCons {n₀ : Nat} {h : Heap} {s : List (Nat × Nat)}
    {a b : Nat} (hpre : PreOK n₀ h s) (ha : lookupA s a = none)
    (hb1 : n₀ ≤ b) (hb2 : b < h.next) :
    FrameOK n₀ h s h ((a, b) :: s) := by
  refine ⟨le_refl _, fun _ _ => rfl, hpre.1, hpre.2.2.2, ?_, SeenExt.cons ha⟩
  intro q hq
  rcases List.mem_cons.mp hq with h1 | h1
  · rw [h1]; exact ⟨hb1, hb2⟩
  · exact hpre.2.2.1 q h1

theorem nilValsHigh (n₀ : Nat) :
    ∀ v ∈ Node.allVals (.obj .plain [] [] []), ValHigh n₀ v := by
  intro v hv
  simp [Node.allVals] at hv

theorem cloneAux_frame (n₀ : Nat) : ∀ (fuel : Nat) (h : Heap)
    (arg : CloneArg) (res : CloneRes), cloneAux fuel h arg = some res →
    PreOK n₀ h arg.seenOf →
    FrameOK n₀ h arg.seenOf res.heapOf res.seenOf ∧ ResHigh n₀ res := by
  intro fuel
  induction fuel with
  | zero =>
    intro h arg res hres _
    exact absurd hres (by simp [cloneAux])
  | succ fuel ih =>
    intro h arg res hres hpre
    match arg with
    | .one (.prim p) seen =>
      simp only [cloneAux] at hres
      obtain rfl := Option.some_inj.mp hres
      exact ⟨FrameOK.refl hpre, trivial⟩
    | .one (.ref a) seen =>
      simp only [cloneAux] at hres
      cases hseen : lookupA seen a with
      | some b =>
        rw [hseen] at hres
        obtain rfl := Option.some_inj.mp hres
        exact ⟨FrameOK.refl hpre, (hpre.2.2.1 (a, b) (lookupA_mem hseen)).1⟩
      | none =>
        rw [hseen] at hres
        cases hnode : h.lookup a with
        | none => rw [hnode] at hres; exact absurd hres (by simp)
        | some nd =>
          rw [hnode] at hres
          match nd with
          | .date t =>
            simp only [Heap.alloc] at hres
            obtain rfl := Option.some_inj.mp hres
            refine ⟨FrameOK.allocStep hpre ?_, hpre.2.1⟩
            intro v hv; simp [Node.allVals] at hv
          | .regexp src flags =>
            simp only [Heap.alloc] at hres
            obtain rfl := Option.some_inj.mp hres
            refine ⟨FrameOK.allocStep hpre ?_, hpre.2.1⟩
            intro v hv; simp [Node.allVals] at hv
          | .arr es =>
            simp only [Heap.alloc] at hres
            cases hsub : cloneAux fuel ⟨h.next + 1, (h.next, .arr []) :: h.mem⟩
                (.many es ((a, h.next) :: seen)) with
            | none => rw [hsub] at hres; exact absurd hres (by simp)
            | some r2 =>
              rw [hsub] at hres
              match r2 with
              | .one _ _ _ => exact absurd hres (by simp)
              | .props _ _ _ => exact absurd hres (by simp)
              | .many es2 h2 seen2 =>
                simp only at hres
                obtain rfl := Option.some_inj.mp hres
                have hallocF : FrameOK n₀ h seen
                    (h.alloc (.arr [])).2 seen :=
                  FrameOK.allocStep hpre (by intro v hv; simp [Node.allVals] at hv)
                have hpre1 : PreOK n₀ (h.alloc (.arr [])).2 seen :=
                  FrameOK.toPreOK hpre hallocF
                have hconsF : FrameOK n₀ (h.alloc (.arr [])).2 seen
                    (h.alloc (.arr [])).2 ((a, h.next) :: seen) :=
                  FrameOK.seenCons hpre1 hseen hpre.2.1 (Nat.lt_succ_self _)
                have hpre2 : PreOK n₀ (h.alloc (.arr [])).2
                    ((a, h.next) :: seen) :=
                  FrameOK.toPreOK hpre1 hconsF
                obtain ⟨hsubF, hsubH⟩ := ih _ _ _ hsub hpre2
                have hF : FrameOK n₀ h seen h2 seen2 :=
                  (hallocF.comp hconsF).comp hsubF
                have hb2 : h.next < h2.next :=
                  lt_of_lt_of_le (Nat.lt_succ_self _) hsubF.1
                refine ⟨hF.setStep (le_refl _) hb2 ?_, hpre.2.1⟩
                intro v hv
                exact hsubH v hv
          | .obj pr props sym hid =>
            simp only [Heap.alloc] at hres
            cases hsub : cloneAux fuel
                ⟨h.next + 1, (h.next, .obj .plain [] [] []) :: h.mem⟩
                (.props props ((a, h.next) :: seen)) with
            | none => rw [hsub] at hres; exact absurd hres (by simp)
            | some r2 =>
              rw [hsub] at hres
              match r2 with
              | .one _ _ _ => exact absurd hres (by simp)
              | .many _ _ _ => exact absurd hres (by simp)
              | .props ps2 h2 seen2 =>
                simp only at hres
                obtain rfl := Option.some_inj.mp hres
                have hallocF : FrameOK n₀ h seen
                    (h.alloc (.obj .plain [] [] [])).2 seen :=
                  FrameOK.allocStep hpre (nilValsHigh n₀)
                have hpre1 : PreOK n₀ (h.alloc (.obj .plain [] [] [])).2 seen :=
                  FrameOK.toPreOK hpre hallocF
                have hconsF : FrameOK n₀ (h.alloc (.obj .plain [] [] [])).2 seen
                    (h.alloc (.obj .plain [] [] [])).2 ((a, h.next) :: seen) :=
                  FrameOK.seenCons hpre1 hseen hpre.2.1 (Nat.lt_succ_self _)
                have hpre2 : PreOK n₀ (h.alloc (.obj .plain [] [] [])).2
                    ((a, h.next) :: seen) :=
                  FrameOK.toPreOK hpre1 hconsF
                obtain ⟨hsubF, hsubH⟩ := ih _ _ _ hsub hpre2
                have hF : FrameOK n₀ h seen h2 seen2 :=
                  (hallocF.comp hconsF).comp hsubF
                have hb2 : h.next < h2.next :=
                  lt_of_lt_of_le (Nat.lt_succ_self _) hsubF.1
                refine ⟨hF.setStep (le_refl _) hb2 ?_, hpre.2.1⟩
                intro v hv
                simp only [Node.allVals, List.map_nil, List.append_nil] at hv
                rcases List.mem_map.mp hv with ⟨q, hq, hqv⟩
                exact hqv ▸ hsubH q hq
    | .many [] seen =>
      simp only [cloneAux] at hres
      obtain rfl := Option.some_inj.mp hres
      exact ⟨FrameOK.refl hpre, by intro v hv; simp at hv⟩
    | .many (v :: vs) seen =>
      simp only [cloneAux] at hres
      cases hsub1 : cloneAux fuel h (.one v seen) with
      | none => rw [hsub1] at hres; exact absurd hres (by simp)
      | some r1 =>
        rw [hsub1] at hres
        match r1 with
        | .many _ _ _ => exact absurd hres (by simp)
        | .props _ _ _ => exact absurd hres (by simp)
        | .one v2 h1 seen1 =>
          simp only at hres
          cases hsub2 : cloneAux fuel h1 (.many vs seen1) with
          | none => rw [hsub2] at hres; exact absurd hres (by simp)
          | some r2 =>
            rw [hsub2] at hres
            match r2 with
            | .one _ _ _ => exact absurd hres (by simp)
            | .props _ _ _ => exact absurd hres (by simp)
            | .many vs2 h2 seen2 =>
              simp only at hres
              obtain rfl := Option.some_inj.mp hres
              obtain ⟨hF1, hH1⟩ := ih _ _ _ hsub1 hpre
              obtain ⟨hF2, hH2⟩ := ih _ _ _ hsub2 (FrameOK.toPreOK hpre hF1)
              refine ⟨hF1.comp hF2, ?_⟩
              intro w hw
              rcases List.mem_cons.mp hw with h1 | h1
              · exact h1 ▸ hH1
              · exact hH2 w h1
    | .props [] seen =>
      simp only [cloneAux] at hres
      obtain rfl := Option.some_inj.mp hres
      exact ⟨FrameOK.refl hpre, by intro v hv; simp at hv⟩
    | .props ((k, v) :: ps) seen =>
      simp only [cloneAux] at hres
      cases hsub1 : cloneAux fuel h (.one v seen) with
      | none => rw [hsub1] at hres; exact absurd hres (by simp)
      | some r1 =>
        rw [hsub1] at hres
        match r1 with
        | .many _ _ _ => exact absurd hres (by simp)
        | .props _ _ _ => exact absurd hres (by simp)
        | .one v2 h1 seen1 =>
          simp only at hres
          cases hsub2 : cloneAux fuel h1 (.props ps seen1) with
          | none => rw [hsub2] at hres; exact absurd hres (by simp)
          | some r2 =>
            rw [hsub2] at hres
            match r2 with
            | .one _ _ _ => exact absurd hres (by simp)
            | .many _ _ _ => exact absurd hres (by simp)
            | .props ps2 h2 seen2 =>
              simp only at hres
              obtain rfl := Option.some_inj.mp hres
              obtain ⟨hF1, hH1⟩ := ih _ _ _ hsub1 hpre
              obtain ⟨hF2, hH2⟩ := ih _ _ _ hsub2 (FrameOK.toPreOK hpre hF1)
              refine ⟨hF1.comp hF2, ?_⟩
              intro w hw
              rcases List.mem_cons.mp hw with h1 | h1
              · exact h1 ▸ hH1
              · exact hH2 w h1

/-- The identity map binds distinct source addresses to distinct clone
addresses, and sources lie below the watermark. -/
def SeenOK (n₀ : Nat) (s : List (Nat × Nat)) : Prop :=
  (s.map Prod.fst).Nodup ∧ (s.map Prod.snd).Nodup ∧ ∀ q ∈ s, q.1 < n₀

/-- Source-region closure: nodes below the watermark only reference nodes
below the watermark (through their traversed children). -/
def LowClosed (n₀ : Nat) (h : Heap) : Prop :=
  ∀ x, x < n₀ → ∀ nd, h.lookup x = some nd →
    ∀ v ∈ nd.children, ∀ a, v = Val.ref a → a < n₀

/-- Nodes below the watermark are containers (no Dates/RegExps in the
source graph; see `nodeCorr`). -/
def ContainersLow (n₀ : Nat) (h : Heap) : Prop :=
  ∀ x, x < n₀ → ∀ nd, h.lookup x = some nd → nd.isContainer = true

/-- Every completed binding of the identity map relates the source node to
its clone node; bindings whose clone is still `pending` (allocated and
registered, children not yet written) are exempt. -/
def PartialCorr (h : Heap) (s : List (Nat × Nat)) (pending : List Nat) :
    Prop :=
  ∀ q ∈ s, q.2 ∉ pending →
    ∃ nd nd2, h.lookup q.1 = some nd ∧ h.lookup q.2 = some nd2 ∧
      nodeCorr s nd nd2

/-- The values a clone task is asked to clone sit below the watermark. -/
def ArgLow (n₀ : Nat) : CloneArg → Prop
  | .one v _ => ∀ a, v = Val.ref a → a < n₀
  | .many vs _ => ∀ v ∈ vs, ∀ a, v = Val.ref a → a < n₀
  | .props ps _ => ∀ p ∈ ps, ∀ a, p.2 = Val.ref a → a < n₀

/-- Task-shaped correspondence between input values and output values
along the final identity map. -/
def ResCorr (s2 : List (Nat × Nat)) : CloneArg → CloneRes → Prop
  | .one v _, .one v2 _ _ => mapsVal s2 v v2
  | .many vs _, .many vs2 _ _ => List.Forall₂ (mapsVal s2) vs vs2
  | .props ps _, .props ps2 _ _ => propsCorr s2 ps ps2
  | _, _ => False

theorem mapsVal_mono {s s2 : List (Nat × Nat)} (hext : SeenExt s s2)
    {v v2 : Val} (hm : mapsVal s v v2) : mapsVal s2 v v2 := by
  match v, v2 with
  | .prim p, .prim q => exact hm
  | .ref a, .ref b => exact hext a b hm
  | .prim _, .ref _ => exact absurd hm id
  | .ref _, .prim _ => exact absurd hm id

theorem propsCorr_mono {s s2 : List (Nat × Nat)} (hext : SeenExt s s2)
    {ps ps2 : List (String × Val)} (hm : propsCorr s ps ps2) :
    propsCorr s2 ps ps2 :=
  List.Forall₂.imp (fun p q hpq => ⟨hpq.1, mapsVal_mono hext hpq.2⟩) hm

theorem nodeCorr_mono {s s2 : List (Nat × Nat)} (hext : SeenExt s s2)
    {nd nd2 : Node} (hm : nodeCorr s nd nd2) : nodeCorr s2 nd nd2 := by
  match nd, nd2 with
  | .obj pr props sym hid, .obj pr2 props2 sym2 hid2 =>
    exact ⟨hm.1, hm.2.1, hm.2.2.1, propsCorr_mono hext hm.2.2.2⟩
  | .arr es, .arr es2 =>
    exact List.Forall₂.imp (fun v w hvw => mapsVal_mono hext hvw) hm
  | .obj _ _ _ _, .arr _ => exact absurd hm id
  | .arr _, .obj _ _ _ _ => exact absurd hm id
  | .obj _ _ _ _, .date _ => exact absurd hm id
  | .obj _ _ _ _, .regexp _ _ => exact absurd hm id
  | .arr _, .date _ => exact absurd hm id
  | .arr _, .regexp _ _ => exact absurd hm id
  | .date _, _ => exact absurd hm (by simp [nodeCorr])
  | .regexp _ _, _ => exact absurd hm (by simp [nodeCorr])

theorem lookupA_isSome_of_mem_keys {α β : Type} [DecidableEq α]
    {l : List (α × β)} {k : α} (hk : k ∈ l.map Prod.fst) :
    (lookupA l k).isSome := by
  induction l with
  | nil => simp at hk
  | cons p rest ih =>
    by_cases hpk : p.1 = k
    · simp [lookupA, hpk]
    · have hk2 : k ∈ rest.map Prod.fst := by
        rcases List.mem_map.mp hk with ⟨q, hq, hqk⟩
        rcases List.mem_cons.mp hq with h1 | h1
        · exact absurd (h1 ▸ hqk) hpk
        · exact List.mem_map.mpr ⟨q, h1, hqk⟩
      simpa [lookupA, hpk] using ih hk2

theorem not_mem_keys_of_lookupA_none {α β : Type} [DecidableEq α]
    {l : List (α × β)} {k : α} (hk : lookupA l k = none) :
    k ∉ l.map Prod.fst := by
  intro hmem
  have := lookupA_isSome_of_mem_keys (l := l) hmem
  rw [hk] at this
  exact Bool.noConfusion this

theorem eq_fst_of_nodup_snd {l : List (Nat × Nat)}
    (hnd : (l.map Prod.snd).Nodup) {x x2 y : Nat}
    (h1 : (x, y) ∈ l) (h2 : (x2, y) ∈ l) : x = x2 := by
  induction l with
  | nil => simp at h1
  | cons p rest ih =>
    rw [List.map_cons, List.nodup_cons] at hnd
    rcases List.mem_cons.mp h1 with ha | ha
    · rcases List.mem_cons.mp h2 with hb | hb
      · rw [← hb] at ha
        exact ((Prod.mk.injEq _ _ _ _).mp ha).1
      · exfalso
        apply hnd.1
        have hy : p.2 = y := by rw [← ha]
        rw [hy]
        exact List.mem_map.mpr ⟨_, hb, rfl⟩
    · rcases List.mem_cons.mp h2 with hb | hb
      · exfalso
        apply hnd.1
        have hy : p.2 = y := by rw [← hb]
        rw [hy]
        exact List.mem_map.mpr ⟨_, ha, rfl⟩
      · exact ih hnd.2 ha hb

theorem lookupA_cons_self {α β : Type} [DecidableEq α]
    (s : List (α × β)) (a : α) (b : β) :
    lookupA ((a, b) :: s) a = some b := by
  simp [lookupA]

theorem LowClosed_of_pres {n₀ : Nat} {h h2 : Heap}
    (hpres : ∀ x, x < n₀ → h2.lookup x = h.lookup x)
    (hlow : LowClosed n₀ h) : LowClosed n₀ h2 := by
  intro x hx nd hnd
  rw [hpres x hx] at hnd
  exact hlow x hx nd hnd

theorem ContainersLow_of_pres {n₀ : Nat} {h h2 : Heap}
    (hpres : ∀ x, x < n₀ → h2.lookup x = h.lookup x)
    (hcont : ContainersLow n₀ h) : ContainersLow n₀ h2 := by
  intro x hx nd hnd
  rw [hpres x hx] at hnd
  exact hcont x hx nd hnd

theorem cloneAux_corr (n₀ : Nat) : ∀ (fuel : Nat) (h : Heap)
    (arg : CloneArg) (res : CloneRes) (pending : List Nat),
    cloneAux fuel h arg = some res →
    PreOK n₀ h arg.seenOf →
    LowClosed n₀ h → ContainersLow n₀ h → SeenOK n₀ arg.seenOf →
    ArgLow n₀ arg → (∀ b ∈ pending, n₀ ≤ b) →
    PartialCorr h arg.seenOf pending →
    LowClosed n₀ res.heapOf ∧ ContainersLow n₀ res.heapOf ∧
    SeenOK n₀ res.seenOf ∧ PartialCorr res.heapOf res.seenOf pending ∧
    ResCorr res.seenOf arg res := by
  intro fuel
  induction fuel with
  | zero =>
    intro h arg res pending hres _ _ _ _ _ _ _
    exact absurd hres (by simp [cloneAux])
  | succ fuel ih =>
    intro h arg res pending hres hpre hlow hcont hsok harg hpend hcorr
    match arg with
    | .one (.prim p) seen =>
      simp only [cloneAux] at hres
      obtain rfl := Option.some_inj.mp hres
      exact ⟨hlow, hcont, hsok, hcorr, rfl⟩
    | .one (.ref a) seen =>
      have ha : a < n₀ := harg a rfl
      simp only [cloneAux] at hres
      cases hseen : lookupA seen a with
      | some b =>
        rw [hseen] at hres
        obtain rfl := Option.some_inj.mp hres
        exact ⟨hlow, hcont, hsok, hcorr, hseen⟩
      | none =>
        rw [hseen] at hres
        cases hnode : h.lookup a with
        | none => rw [hnode] at hres; exact absurd hres (by simp)
        | some nd =>
          rw [hnode] at hres
          match nd with
          | .date t =>
            have := hcont a ha _ hnode
            simp [Node.isContainer] at this
          | .regexp src flags =>
            have := hcont a ha _ hnode
            simp [Node.isContainer] at this
          | .arr es =>
            simp only [Heap.alloc] at hres
            cases hsub : cloneAux fuel ⟨h.next + 1, (h.next, .arr []) :: h.mem⟩
                (.many es ((a, h.next) :: seen)) with
            | none => rw [hsub] at hres; exact absurd hres (by simp)
            | some r2 =>
              rw [hsub] at hres
              match r2 with
              | .one _ _ _ => exact absurd hres (by simp)
              | .props _ _ _ => exact absurd hres (by simp)
              | .many es2 h2 seen2 =>
                simp only at hres
                obtain rfl := Option.some_inj.mp hres
                simp only [CloneArg.seenOf, CloneRes.heapOf, CloneRes.seenOf]
                  at hpre hsok harg hcorr ⊢
                have hallocF : FrameOK n₀ h seen (h.alloc (.arr [])).2 seen :=
                  FrameOK.allocStep hpre (by intro v hv; simp [Node.allVals] at hv)
                have hpre1 : PreOK n₀ (h.alloc (.arr [])).2 seen :=
                  FrameOK.toPreOK hpre hallocF
                have hconsF : FrameOK n₀ (h.alloc (.arr [])).2 seen
                    (h.alloc (.arr [])).2 ((a, h.next) :: seen) :=
                  FrameOK.seenCons hpre1 hseen hpre.2.1 (Nat.lt_succ_self _)
                have hpre2 : PreOK n₀ (h.alloc (.arr [])).2
                    ((a, h.next) :: seen) :=
                  FrameOK.toPreOK hpre1 hconsF
                have hpres1 : ∀ x, x < n₀ →
                    ((h.alloc (.arr [])).2).lookup x = h.lookup x := by
                  intro x hx
                  exact hallocF.2.1 x (lt_of_lt_of_le hx hpre.2.1)
                have hsok1 : SeenOK n₀ ((a, h.next) :: seen) := by
                  refine ⟨?_, ?_, ?_⟩
                  · rw [List.map_cons]
                    exact List.nodup_cons.mpr
                      ⟨not_mem_keys_of_lookupA_none hseen, hsok.1⟩
                  · rw [List.map_cons]
                    refine List.nodup_cons.mpr ⟨?_, hsok.2.1⟩
                    intro hmem
                    rcases List.mem_map.mp hmem with ⟨q, hq, hq2⟩
                    exact absurd (hq2 ▸ (hpre.2.2.1 q hq).2) (lt_irrefl _)
                  · intro q hq
                    rcases List.mem_cons.mp hq with h1 | h1
                    · rw [h1]; exact ha
                    · exact hsok.2.2 q h1
                have hargsub : ArgLow n₀ (.many es ((a, h.next) :: seen)) := by
                  intro v hv a2 hva
                  exact hlow a ha _ hnode v hv a2 hva
                have hpendsub : ∀ b2 ∈ h.next :: pending, n₀ ≤ b2 := by
                  intro b2 hb2
                  rcases List.mem_cons.mp hb2 with h1 | h1
                  · rw [h1]; exact hpre.2.1
                  · exact hpend b2 h1
                have hcorrsub : PartialCorr (h.alloc (.arr [])).2
                    ((a, h.next) :: seen) (h.next :: pending) := by
                  intro q hq hqp
                  rcases List.mem_cons.mp hq with h1 | h1
                  · exact absurd (by rw [h1]; exact List.mem_cons_self _ _) hqp
                  · have hqp2 : q.2 ∉ pending := by
                      intro hmem
                      exact hqp (List.mem_cons_of_mem _ hmem)
                    obtain ⟨nd, nd2, hnd, hnd2, hndc⟩ := hcorr q h1 hqp2
                    refine ⟨nd, nd2, ?_, ?_,
                      nodeCorr_mono (SeenExt.cons hseen) hndc⟩
                    · rw [hpres1 q.1 (hsok.2.2 q h1)]; exact hnd
                    · rw [hallocF.2.1 q.2 (hpre.2.2.1 q h1).2]; exact hnd2
                obtain ⟨hlow2, hcont2, hsok2, hpcorr2, hrescorr2⟩ :=
                  ih _ _ _ _ hsub hpre2
                    (LowClosed_of_pres hpres1 hlow)
                    (ContainersLow_of_pres hpres1 hcont)
                    hsok1 hargsub hpendsub hcorrsub
                obtain ⟨hFsub, _⟩ := cloneAux_frame n₀ fuel _ _ _ hsub hpre2
                simp only [CloneArg.seenOf, CloneRes.heapOf, CloneRes.seenOf]
                  at hlow2 hcont2 hsok2 hpcorr2 hrescorr2 hFsub
                have hmap : lookupA seen2 a = some h.next :=
                  hFsub.2.2.2.2.2 a h.next (lookupA_cons_self seen a h.next)
                have hpres3 : ∀ x, x < n₀ →
                    ((h2.set h.next (.arr es2)).lookup x = h.lookup x) := by
                  intro x hx
                  have hxn : x < h.next := lt_of_lt_of_le hx hpre.2.1
                  rw [Heap.set_lookup_ne h2 h.next x _ (Nat.ne_of_gt hxn)]
                  rw [hFsub.2.1 x (Nat.lt_succ_of_lt hxn)]
                  exact hpres1 x hx
                refine ⟨LowClosed_of_pres hpres3 hlow,
                  ContainersLow_of_pres hpres3 hcont, hsok2, ?_, hmap⟩
                intro q hq hqp
                by_cases hqb : q.2 = h.next
                · have hab : (a, h.next) ∈ seen2 := lookupA_mem hmap
                  have hq2 : (q.1, h.next) ∈ seen2 := by
                    rw [← hqb]; exact hq
                  have hq1 : q.1 = a := eq_fst_of_nodup_snd hsok2.2.1 hq2 hab
                  refine ⟨.arr es, .arr es2, ?_, ?_, hrescorr2⟩
                  · rw [hq1, hpres3 a ha]; exact hnode
                  · rw [hqb, Heap.set_lookup_self]
                · have hqp2 : q.2 ∉ h.next :: pending := by
                    intro hmem
                    rcases List.mem_cons.mp hmem with h1 | h1
                    · exact hqb h1
                    · exact hqp h1
                  obtain ⟨nd, nd2, hnd, hnd2, hndc⟩ := hpcorr2 q hq hqp2
                  refine ⟨nd, nd2, ?_, ?_, hndc⟩
                  · have hq1n : q.1 < n₀ := hsok2.2.2 q hq
                    rw [Heap.set_lookup_ne h2 h.next q.1 _
                      (Nat.ne_of_gt (lt_of_lt_of_le hq1n hpre.2.1))]
                    exact hnd
                  · rw [Heap.set_lookup_ne h2 h.next q.2 _
                      (fun he => hqb he.symm)]
                    exact hnd2
          | .obj pr props sym hid =>
            simp only [Heap.alloc] at hres
            cases hsub : cloneAux fuel
                ⟨h.next + 1, (h.next, .obj .plain [] [] []) :: h.mem⟩
                (.props props ((a, h.next) :: seen)) with
            | none => rw [hsub] at hres; exact absurd hres (by simp)
            | some r2 =>
              rw [hsub] at hres
              match r2 with
              | .one _ _ _ => exact absurd hres (by simp)
              | .many _ _ _ => exact absurd hres (by simp)
              | .props ps2 h2 seen2 =>
                simp only at hres
                obtain rfl := Option.some_inj.mp hres
                simp only [CloneArg.seenOf, CloneRes.heapOf, CloneRes.seenOf]
                  at hpre hsok harg hcorr ⊢
                have hallocF : FrameOK n₀ h seen
                    (h.alloc (.obj .plain [] [] [])).2 seen :=
                  FrameOK.allocStep hpre (nilValsHigh n₀)
                have hpre1 : PreOK n₀ (h.alloc (.obj .plain [] [] [])).2 seen :=
                  FrameOK.toPreOK hpre hallocF
                have hconsF : FrameOK n₀ (h.alloc (.obj .plain [] [] [])).2 seen
                    (h.alloc (.obj .plain [] [] [])).2 ((a, h.next) :: seen) :=
                  FrameOK.seenCons hpre1 hseen hpre.2.1 (Nat.lt_succ_self _)
                have hpre2 : PreOK n₀ (h.alloc (.obj .plain [] [] [])).2
                    ((a, h.next) :: seen) :=
                  FrameOK.toPreOK hpre1 hconsF
                have hpres1 : ∀ x, x < n₀ →
                    ((h.alloc (.obj .plain [] [] [])).2).lookup x =
                      h.lookup x := by
                  intro x hx
                  exact hallocF.2.1 x (lt_of_lt_of_le hx hpre.2.1)
                have hsok1 : SeenOK n₀ ((a, h.next) :: seen) := by
                  refine ⟨?_, ?_, ?_⟩
                  · rw [List.map_cons]
                    exact List.nodup_cons.mpr
                      ⟨not_mem_keys_of_lookupA_none hseen, hsok.1⟩
                  · rw [List.map_cons]
                    refine List.nodup_cons.mpr ⟨?_, hsok.2.1⟩
                    intro hmem
                    rcases List.mem_map.mp hmem with ⟨q, hq, hq2⟩
                    exact absurd (hq2 ▸ (hpre.2.2.1 q hq).2) (lt_irrefl _)
                  · intro q hq
                    rcases List.mem_cons.mp hq with h1 | h1
                    · rw [h1]; exact ha
                    · exact hsok.2.2 q h1
                have hargsub : ArgLow n₀
                    (.props props ((a, h.next) :: seen)) := by
                  intro q hq a2 hqa
                  refine hlow a ha _ hnode q.2 ?_ a2 hqa
                  simp only [Node.children]
                  exact List.mem_map.mpr ⟨q, hq, rfl⟩
                have hpendsub : ∀ b2 ∈ h.next :: pending, n₀ ≤ b2 := by
                  intro b2 hb2
                  rcases List.mem_cons.mp hb2 with h1 | h1
                  · rw [h1]; exact hpre.2.1
                  · exact hpend b2 h1
                have hcorrsub : PartialCorr (h.alloc (.obj .plain [] [] [])).2
                    ((a, h.next) :: seen) (h.next :: pending) := by
                  intro q hq hqp
                  rcases List.mem_cons.mp hq with h1 | h1
                  · exact absurd (by rw [h1]; exact List.mem_cons_self _ _) hqp
                  · have hqp2 : q.2 ∉ pending := by
                      intro hmem
                      exact hqp (List.mem_cons_of_mem _ hmem)
                    obtain ⟨nd, nd2, hnd, hnd2, hndc⟩ := hcorr q h1 hqp2
                    refine ⟨nd, nd2, ?_, ?_,
                      nodeCorr_mono (SeenExt.cons hseen) hndc⟩
                    · rw [hpres1 q.1 (hsok.2.2 q h1)]; exact hnd
                    · rw [hallocF.2.1 q.2 (hpre.2.2.1 q h1).2]; exact hnd2
                obtain ⟨hlow2, hcont2, hsok2, hpcorr2, hrescorr2⟩ :=
                  ih _ _ _ _ hsub hpre2
                    (LowClosed_of_pres hpres1 hlow)
                    (ContainersLow_of_pres hpres1 hcont)
                    hsok1 hargsub hpendsub hcorrsub
                obtain ⟨hFsub, _⟩ := cloneAux_frame n₀ fuel _ _ _ hsub hpre2
                simp only [CloneArg.seenOf, CloneRes.heapOf, CloneRes.seenOf]
                  at hlow2 hcont2 hsok2 hpcorr2 hrescorr2 hFsub
                have hmap : lookupA seen2 a = some h.next :=
                  hFsub.2.2.2.2.2 a h.next (lookupA_cons_self seen a h.next)
                have hpres3 : ∀ x, x < n₀ →
                    ((h2.set h.next (.obj .plain ps2 [] [])).lookup x =
                      h.lookup x) := by
                  intro x hx
                  have hxn : x < h.next := lt_of_lt_of_le hx hpre.2.1
                  rw [Heap.set_lookup_ne h2 h.next x _ (Nat.ne_of_gt hxn)]
                  rw [hFsub.2.1 x (Nat.lt_succ_of_lt hxn)]
                  exact hpres1 x hx
                refine ⟨LowClosed_of_pres hpres3 hlow,
                  ContainersLow_of_pres hpres3 hcont, hsok2, ?_, hmap⟩
                intro q hq hqp
                by_cases hqb : q.2 = h.next
                · have hab : (a, h.next) ∈ seen2 := lookupA_mem hmap
                  have hq2 : (q.1, h.next) ∈ seen2 := by
                    rw [← hqb]; exact hq
                  have hq1 : q.1 = a := eq_fst_of_nodup_snd hsok2.2.1 hq2 hab
                  refine ⟨.obj pr props sym hid, .obj .plain ps2 [] [],
                    ?_, ?_, ?_⟩
                  · rw [hq1, hpres3 a ha]; exact hnode
                  · rw [hqb, Heap.set_lookup_self]
                  · exact ⟨rfl, rfl, rfl, hrescorr2⟩
                · have hqp2 : q.2 ∉ h.next :: pending := by
                    intro hmem
                    rcases List.mem_cons.mp hmem with h1 | h1
                    · exact hqb h1
                    · exact hqp h1
                  obtain ⟨nd, nd2, hnd, hnd2, hndc⟩ := hpcorr2 q hq hqp2
                  refine ⟨nd, nd2, ?_, ?_, hndc⟩
                  · have hq1n : q.1 < n₀ := hsok2.2.2 q hq
                    rw [Heap.set_lookup_ne h2 h.next q.1 _
                      (Nat.ne_of_gt (lt_of_lt_of_le hq1n hpre.2.1))]
                    exact hnd
                  · rw [Heap.set_lookup_ne h2 h.next q.2 _
                      (fun he => hqb he.symm)]
                    exact hnd2
    | .many [] seen =>
      simp only [cloneAux] at hres
      obtain rfl := Option.some_inj.mp hres
      exact ⟨hlow, hcont, hsok, hcorr, List.Forall₂.nil⟩
    | .many (v :: vs) seen =>
      simp only [cloneAux] at hres
      cases hsub1 : cloneAux fuel h (.one v seen) with
      | none => rw [hsub1] at hres; exact absurd hres (by simp)
      | some r1 =>
        rw [hsub1] at hres
        match r1 with
        | .many _ _ _ => exact absurd hres (by simp)
        | .props _ _ _ => exact absurd hres (by simp)
        | .one v2 h1 seen1 =>
          simp only at hres
          cases hsub2 : cloneAux fuel h1 (.many vs seen1) with
          | none => rw [hsub2] at hres; exact absurd hres (by simp)
          | some r2 =>
            rw [hsub2] at hres
            match r2 with
            | .one _ _ _ => exact absurd hres (by simp)
            | .props _ _ _ => exact absurd hres (by simp)
            | .many vs2 h2 seen2 =>
              simp only at hres
              obtain rfl := Option.some_inj.mp hres
              obtain ⟨hF1, _⟩ := cloneAux_frame n₀ fuel _ _ _ hsub1 hpre
              obtain ⟨hlw1, hct1, hsk1, hpc1, hrc1⟩ :=
                ih _ _ _ _ hsub1 hpre hlow hcont hsok
                  (fun a2 hva => harg v (List.mem_cons_self _ _) a2 hva)
                  hpend hcorr
              obtain ⟨hF2, _⟩ := cloneAux_frame n₀ fuel _ _ _ hsub2
                (FrameOK.toPreOK hpre hF1)
              obtain ⟨hlw2, hct2, hsk2, hpc2, hrc2⟩ :=
                ih _ _ _ _ hsub2 (FrameOK.toPreOK hpre hF1) hlw1 hct1 hsk1
                  (fun w hw a2 hwa =>
                    harg w (List.mem_cons_of_mem _ hw) a2 hwa)
                  hpend hpc1
              refine ⟨hlw2, hct2, hsk2, hpc2, ?_⟩
              exact List.Forall₂.cons
                (mapsVal_mono hF2.2.2.2.2.2 hrc1) hrc2
    | .props [] seen =>
      simp only [cloneAux] at hres
      obtain rfl := Option.some_inj.mp hres
      exact ⟨hlow, hcont, hsok, hcorr, List.Forall₂.nil⟩
    | .props ((k, v) :: ps) seen =>
      simp only [cloneAux] at hres
      cases hsub1 : cloneAux fuel h (.one v seen) with
      | none => rw [hsub1] at hres; exact absurd hres (by simp)
      | some r1 =>
        rw [hsub1] at hres
        match r1 with
        | .many _ _ _ => exact absurd hres (by simp)
        | .props _ _ _ => exact absurd hres (by simp)
        | .one v2 h1 seen1 =>
          simp only at hres
          cases hsub2 : cloneAux fuel h1 (.props ps seen1) with
          | none => rw [hsub2] at hres; exact absurd hres (by simp)
          | some r2 =>
            rw [hsub2] at hres
            match r2 with
            | .one _ _ _ => exact absurd hres (by simp)
            | .many _ _ _ => exact absurd hres (by simp)
            | .props ps2 h2 seen2 =>
              simp only at hres
              obtain rfl := Option.some_inj.mp hres
              obtain ⟨hF1, _⟩ := cloneAux_frame n₀ fuel _ _ _ hsub1 hpre
              obtain ⟨hlw1, hct1, hsk1, hpc1, hrc1⟩ :=
                ih _ _ _ _ hsub1 hpre hlow hcont hsok
                  (fun a2 hva =>
                    harg (k, v) (List.mem_cons_self _ _) a2 hva)
                  hpend hcorr
              obtain ⟨hF2, _⟩ := cloneAux_frame n₀ fuel _ _ _ hsub2
                (FrameOK.toPreOK hpre hF1)
              obtain ⟨hlw2, hct2, hsk2, hpc2, hrc2⟩ :=
                ih _ _ _ _ hsub2 (FrameOK.toPreOK hpre hF1) hlw1 hct1 hsk1
                  (fun q hq a2 hqa =>
                    harg q (List.mem_cons_of_mem _ hq) a2 hqa)
                  hpend hpc1
              refine ⟨hlw2, hct2, hsk2, hpc2, ?_⟩
              exact List.Forall₂.cons
                ⟨rfl, mapsVal_mono hF2.2.2.2.2.2 hrc1⟩ hrc2

theorem children_sub_allVals (nd : Node) : ∀ v ∈ nd.children, v ∈ nd.allVals := by
  intro v hv
  match nd with
  | .obj _ props sym hid =>
    simp only [Node.children] at hv
    simp only [Node.allVals, List.mem_append]
    exact Or.inl (Or.inl hv)
  | .arr es => exact hv
  | .date _ => simp [Node.children] at hv
  | .regexp _ _ => simp [Node.children] at hv

theorem Heap.lookup_none_of_ge {h : Heap} (hwf : h.WF) {x : Nat}
    (hx : h.next ≤ x) : h.lookup x = none := by
  cases hl : h.lookup x with
  | none => rfl
  | some nd =>
    exact absurd (hwf.2 _ (lookupA_mem hl)) (not_lt_of_le hx)

theorem Heap.lt_next_of_lookup_isSome {h : Heap} (hwf : h.WF) {x : Nat}
    (hx : (h.lookup x).isSome) : x < h.next := by
  cases hl : h.lookup x with
  | none => rw [hl] at hx; exact Bool.noConfusion hx
  | some nd => exact hwf.2 _ (lookupA_mem hl)

theorem LowClosed_of_WF_Closed {h : Heap} (hwf : h.WF) (hcl : h.Closed) :
    LowClosed h.next h := by
  intro x _ nd hnd v hv a hva
  have hmem : (x, nd) ∈ h.mem := lookupA_mem hnd
  have := hcl (x, nd) hmem v (children_sub_allVals nd v hv)
  rw [hva] at this
  exact h.lt_next_of_lookup_isSome hwf (by simpa [Heap.valClosed] using this)

theorem ContainersLow_of_containersOnly {h : Heap}
    (hco : h.containersOnly) : ContainersLow h.next h := by
  intro x _ nd hnd
  exact hco (x, nd) (lookupA_mem hnd)

theorem resolve_low_pres {n₀ : Nat} {h h2 : Heap}
    (hpres : ∀ x, x < n₀ → h2.lookup x = h.lookup x)
    (hlow : LowClosed n₀ h) :
    ∀ (p : List Step) (v : Val), (∀ a, v = Val.ref a → a < n₀) →
      resolve h2 v p = resolve h v p := by
  intro p
  induction p with
  | nil =>
    intro v _
    match v with
    | .prim q => rfl
    | .ref a => rfl
  | cons s rest ih =>
    intro v hv
    match v with
    | .prim q => rfl
    | .ref a =>
      have ha : a < n₀ := hv a rfl
      simp only [resolve, hpres a ha]
      cases hnd : h.lookup a with
      | none => rfl
      | some nd =>
        match nd, s with
        | .obj pr props sym hid, .field k =>
          simp only
          cases hk : lookupA props k with
          | none => rfl
          | some v2 =>
            have hv2 : ∀ a2, v2 = Val.ref a2 → a2 < n₀ := by
              intro a2 hva
              refine hlow a ha _ hnd v2 ?_ a2 hva
              simp only [Node.children]
              exact List.mem_map.mpr ⟨_, lookupA_mem hk, rfl⟩
            exact ih v2 hv2
        | .obj _ _ _ _, .index _ => rfl
        | .arr es, .field _ => rfl
        | .arr es, .index i =>
          simp only
          cases hk : es.get? i with
          | none => rfl
          | some v2 =>
            have hv2 : ∀ a2, v2 = Val.ref a2 → a2 < n₀ := by
              intro a2 hva
              exact hlow a ha _ hnd v2 (List.get?_mem hk) a2 hva
            exact ih v2 hv2
        | .date _, .field _ => rfl
        | .date _, .index _ => rfl
        | .regexp _ _, .field _ => rfl
        | .regexp _ _, .index _ => rfl

theorem propsCorr_lookupA {μ : List (Nat × Nat)}
    {ps ps2 : List (String × Val)} (hc : propsCorr μ ps ps2) {k : String}
    {c : Val} (hk : lookupA ps k = some c) :
    ∃ c2, lookupA ps2 k = some c2 ∧ mapsVal μ c c2 := by
  induction hc with
  | nil => exact absurd hk (by simp [lookupA])
  | cons hpq hrest ih =>
    rename_i p q ps' ps2'
    by_cases hpk : p.1 = k
    · rw [lookupA, if_pos hpk] at hk
      refine ⟨q.2, ?_, ?_⟩
      · rw [lookupA, if_pos (hpq.1 ▸ hpk)]
      · rw [← Option.some_inj.mp hk]; exact hpq.2
    · rw [lookupA, if_neg hpk] at hk
      obtain ⟨c2, hc2, hm⟩ := ih hk
      refine ⟨c2, ?_, hm⟩
      rw [lookupA, if_neg (fun he => hpk (hpq.1 ▸ he))]
      exact hc2

theorem forall₂_get? {α β : Type} {R : α → β → Prop} {l : List α}
    {l2 : List β} (hf : List.Forall₂ R l l2) :
    ∀ (i : Nat) (c : α), l.get? i = some c →
      ∃ c2, l2.get? i = some c2 ∧ R c c2 := by
  induction hf with
  | nil => intro i c hc; simp at hc
  | cons hab hrest ih =>
    intro i c hc
    match i with
    | 0 =>
      refine ⟨_, rfl, ?_⟩
      rw [← Option.some_inj.mp hc]
      exact hab
    | i + 1 => exact ih i c hc

theorem resolve_sim {h2 : Heap} {μ : List (Nat × Nat)}
    (hfull : PartialCorr h2 μ []) :
    ∀ (p : List Step) (v v2 r : Val), mapsVal μ v v2 →
      resolve h2 v p = some r →
      ∃ r2, resolve h2 v2 p = some r2 ∧ mapsVal μ r r2 := by
  intro p
  induction p with
  | nil =>
    intro v v2 r hm hr
    have hv : resolve h2 v [] = some v := by
      match v with
      | .prim _ => rfl
      | .ref _ => rfl
    rw [hv] at hr
    have hv2 : resolve h2 v2 [] = some v2 := by
      match v2 with
      | .prim _ => rfl
      | .ref _ => rfl
    exact ⟨v2, hv2, (Option.some_inj.mp hr) ▸ hm⟩
  | cons s rest ih =>
    intro v v2 r hm hr
    match v with
    | .prim q => exact absurd hr (by simp [resolve])
    | .ref a =>
      match v2 with
      | .prim _ => exact absurd hm id
      | .ref b =>
        obtain ⟨nd, nd2, hnd, hnd2, hndc⟩ :=
          hfull (a, b) (lookupA_mem hm) (by simp)
        simp only [resolve, hnd] at hr
        match nd, nd2 with
        | .obj pr props sym hid, .obj pr2 props2 sym2 hid2 =>
          match s with
          | .field k =>
            simp only at hr
            cases hk : lookupA props k with
            | none => rw [hk] at hr; exact absurd hr (by simp)
            | some c =>
              rw [hk] at hr
              obtain ⟨c2, hc2, hcm⟩ := propsCorr_lookupA hndc.2.2.2 hk
              obtain ⟨r2, hr2, hrm⟩ := ih c c2 r hcm hr
              refine ⟨r2, ?_, hrm⟩
              simp only [resolve, hnd2, hc2]
              exact hr2
          | .index i => simp at hr
        | .obj _ _ _ _, .arr _ => exact absurd hndc id
        | .arr _, .obj _ _ _ _ => exact absurd hndc id
        | .arr es, .arr es2 =>
          match s with
          | .field k => simp at hr
          | .index i =>
            simp only at hr
            cases hk : es.get? i with
            | none => rw [hk] at hr; exact absurd hr (by simp)
            | some c =>
              rw [hk] at hr
              obtain ⟨c2, hc2, hcm⟩ := forall₂_get? hndc i c hk
              obtain ⟨r2, hr2, hrm⟩ := ih c c2 r hcm hr
              refine ⟨r2, ?_, hrm⟩
              simp only [resolve, hnd2, hc2]
              exact hr2
        | .date _, _ => exact absurd hndc (by simp [nodeCorr])
        | .regexp _ _, _ => exact absurd hndc (by simp [nodeCorr])

theorem resolve_nil (h : Heap) (v : Val) : resolve h v [] = some v := by
  match v with
  | .prim _ => rfl
  | .ref _ => rfl

/-- C3: for every container graph (every node a plain object or array, no
dangling references) and root object, a successful
`RecursiveStrategy.clone` — which is exactly what `clone`/`deepClone` in
auto mode returns — produces a fresh root, distinct from every source
object, and reproduces the sharing/cycle topology exactly: any two paths
that reach the *same* object in the source reach the *same* cloned object
in the clone, and that cloned object is not a source object.  In
particular `clone(c).self === clone(c) !== c` for the self-referential
`c = {a:1, self:c}`, and `clone(root).p === clone(root).q !== shared` for
`root = {p: shared, q: shared}` (see the witness). -/
theorem claim3_sharing_topology_preserved
    (h : Heap) (a₀ fuel : Nat) (v2 : Val) (h2 : Heap)
    (μ : List (Nat × Nat))
    (hclone : RecursiveStrategy.clone fuel h (.ref a₀) [] = some (v2, h2, μ))
    (hwf : h.WF) (hcl : h.Closed) (hco : h.containersOnly)
    (ha₀ : (h.lookup a₀).isSome) :
    (∃ b₀, v2 = Val.ref b₀ ∧ h.lookup b₀ = none ∧ v2 ≠ Val.ref a₀) ∧
    (∀ (p q : List Step) (c : Nat),
      resolve h (.ref a₀) p = some (.ref c) →
      resolve h (.ref a₀) q = some (.ref c) →
      ∃ d, resolve h2 v2 p = some (.ref d) ∧
        resolve h2 v2 q = some (.ref d) ∧ h.lookup d = none) := by
  have ha₀lt : a₀ < h.next := h.lt_next_of_lookup_isSome hwf ha₀
  simp only [RecursiveStrategy.clone] at hclone
  cases hca : cloneAux fuel h (.one (.ref a₀) []) with
  | none => rw [hca] at hclone; exact absurd hclone (by simp)
  | some res =>
    rw [hca] at hclone
    match res with
    | .many _ _ _ => exact absurd hclone (by simp)
    | .props _ _ _ => exact absurd hclone (by simp)
    | .one v2' h2' μ' =>
      simp only at hclone
      have heq := Option.some_inj.mp hclone
      injection heq with e1 e23
      injection e23 with e2 e3
      subst e1; subst e2; subst e3
      have hpre : PreOK h.next h [] := by
        refine ⟨hwf, le_refl _, ?_, ?_⟩
        · intro q hq; simp at hq
        · intro pr hpr hge
          exact absurd (hwf.2 pr hpr) (not_lt_of_le hge)
      obtain ⟨hF, hHigh⟩ := cloneAux_frame h.next fuel h _ _ hca hpre
      obtain ⟨_, _, hsok, hfull, hrescorr⟩ :=
        cloneAux_corr h.next fuel h _ _ [] hca hpre
          (LowClosed_of_WF_Closed hwf hcl)
          (ContainersLow_of_containersOnly hco)
          ⟨List.nodup_nil, List.nodup_nil,
            by intro q hq; exact absurd hq (List.not_mem_nil q)⟩
          (by intro a hva
              cases hva
              exact ha₀lt)
          (by intro b hb; simp at hb)
          (by intro q hq _; exact absurd hq (List.not_mem_nil q))
      cases v2' with
      | prim pp => exact absurd hrescorr id
      | ref b₀ =>
        have hm : lookupA μ' a₀ = some b₀ := hrescorr
        have hb₀ : h.next ≤ b₀ :=
          (hF.2.2.2.2.1 (a₀, b₀) (lookupA_mem hm)).1
        constructor
        · refine ⟨b₀, rfl, h.lookup_none_of_ge hwf hb₀, ?_⟩
          intro hcontra
          injection hcontra with he
          exact absurd (he ▸ hb₀) (not_le_of_lt ha₀lt)
        · intro p q c hp hq
          have hlows : LowClosed h.next h := LowClosed_of_WF_Closed hwf hcl
          have hpres : ∀ x, x < h.next → h2'.lookup x = h.lookup x := hF.2.1
          have halow : ∀ a2, Val.ref a₀ = Val.ref a2 → a2 < h.next := by
            intro a2 hva
            cases hva
            exact ha₀lt
          have hp2 : resolve h2' (.ref a₀) p = some (.ref c) := by
            rw [resolve_low_pres hpres hlows p (.ref a₀) halow]
            exact hp
          have hq2 : resolve h2' (.ref a₀) q = some (.ref c) := by
            rw [resolve_low_pres hpres hlows q (.ref a₀) halow]
            exact hq
          obtain ⟨rp, hrp, hrpm⟩ := resolve_sim hfull p (.ref a₀)
            (.ref b₀) (.ref c)
            (show mapsVal μ' (.ref a₀) (.ref b₀) from hm) hp2
          obtain ⟨rq, hrq, hrqm⟩ := resolve_sim hfull q (.ref a₀)
            (.ref b₀) (.ref c)
            (show mapsVal μ' (.ref a₀) (.ref b₀) from hm) hq2
          cases rp with
          | prim pp => exact absurd hrpm id
          | ref dp =>
            cases rq with
            | prim pq => exact absurd hrqm id
            | ref dq =>
              have hdp : lookupA μ' c = some dp := hrpm
              have hdq : lookupA μ' c = some dq := hrqm
              have hdd : dp = dq := by
                rw [hdp] at hdq
                exact Option.some_inj.mp hdq
              have hhigh : h.next ≤ dp :=
                (hF.2.2.2.2.1 (c, dp) (lookupA_mem hdp)).1
              exact ⟨dp, hrp, hdd ▸ hrq,
                h.lookup_none_of_ge hwf hhigh⟩

/-- The spec's cycle fixture `c = {a:1}; c.self = c`. -/
def cycleHeap : Heap :=
  ⟨1, [(0, .obj .plain [("a", .prim (.num 1)), ("self", .ref 0)] [] [])]⟩

/-- The clone heap `RecursiveStrategy.clone` produces for `cycleHeap`. -/
def cycleCloneHeap : Heap :=
  ⟨2, [(1, .obj .plain [("a", .prim (.num 1)), ("self", .ref 1)] [] []),
       (0, .obj .plain [("a", .prim (.num 1)), ("self", .ref 0)] [] [])]⟩

/-- The spec's sharing fixture `shared = {x:1}; root = {p:shared, q:shared}`. -/
def sharedHeap : Heap :=
  ⟨2, [(0, .obj .plain [("p", .ref 1), ("q", .ref 1)] [] []),
       (1, .obj .plain [("x", .prim (.num 1))] [] [])]⟩

/-- The clone heap `RecursiveStrategy.clone` produces for `sharedHeap`. -/
def sharedCloneHeap : Heap :=
  ⟨4, [(3, .obj .plain [("x", .prim (.num 1))] [] []),
       (2, .obj .plain [("p", .ref 3), ("q", .ref 3)] [] []),
       (0, .obj .plain [("p", .ref 1), ("q", .ref 1)] [] []),
       (1, .obj .plain [("x", .prim (.num 1))] [] [])]⟩

/-- Witness for C3 at the spec's two fixtures: in the cycle fixture the
clone's `self` is the clone itself and is no source object; in the sharing
fixture the clone's `p` and `q` are one and the same cloned object, again
no source object (in particular not `shared`). -/
theorem claim3_sharing_topology_preserved_witness :
    (∃ d, resolve cycleCloneHeap (.ref 1) [Step.field "self"] =
        some (.ref d) ∧
      resolve cycleCloneHeap (.ref 1) [] = some (.ref d) ∧
      cycleHeap.lookup d = none) ∧
    (∃ d, resolve sharedCloneHeap (.ref 2) [Step.field "p"] =
        some (.ref d) ∧
      resolve sharedCloneHeap (.ref 2) [Step.field "q"] = some (.ref d) ∧
      sharedHeap.lookup d = none) := by
  constructor
  · exact (claim3_sharing_topology_preserved cycleHeap 0 10 (.ref 1)
      cycleCloneHeap [(0, 1)] (by decide) (by decide) (by decide)
      (by decide) (by decide)).2
      [Step.field "self"] [] 0 (by decide) (by decide)
  · exact (claim3_sharing_topology_preserved sharedHeap 0 10 (.ref 2)
      sharedCloneHeap [(1, 3), (0, 2)] (by decide) (by decide) (by decide)
      (by decide) (by decide)).2
      [Step.field "p"] [Step.field "q"] 1 (by decide) (by decide)

theorem cloneAux_props_keys : ∀ (fuel : Nat) (h : Heap)
    (ps : List (String × Val)) (seen : List (Nat × Nat))
    (ps2 : List (String × Val)) (h2 : Heap) (s2 : List (Nat × Nat)),
    cloneAux fuel h (.props ps seen) = some (.props ps2 h2 s2) →
    ps2.map Prod.fst = ps.map Prod.fst := by
  intro fuel
  induction fuel with
  | zero =>
    intro h ps seen ps2 h2 s2 hres
    exact absurd hres (by simp [cloneAux])
  | succ fuel ih =>
    intro h ps seen ps2 h2 s2 hres
    match ps with
    | [] =>
      simp only [cloneAux] at hres
      have := Option.some_inj.mp hres
      injection this with e1 e2
      rw [← e1]
    | (k, v) :: rest =>
      simp only [cloneAux] at hres
      cases hsub1 : cloneAux fuel h (.one v seen) with
      | none => rw [hsub1] at hres; exact absurd hres (by simp)
      | some r1 =>
        rw [hsub1] at hres
        match r1 with
        | .many _ _ _ => exact absurd hres (by simp)
        | .props _ _ _ => exact absurd hres (by simp)
        | .one v2 h1 seen1 =>
          simp only at hres
          cases hsub2 : cloneAux fuel h1 (.props rest seen1) with
          | none => rw [hsub2] at hres; exact absurd hres (by simp)
          | some r2 =>
            rw [hsub2] at hres
            match r2 with
            | .one _ _ _ => exact absurd hres (by simp)
            | .many _ _ _ => exact absurd hres (by simp)
            | .props rest2 h3 seen3 =>
              simp only at hres
              have := Option.some_inj.mp hres
              injection this with e1 e2
              rw [← e1, List.map_cons, List.map_cons,
                ih h1 rest seen1 rest2 h3 seen3 hsub2]

/-- C9: cloning a generic object through `RecursiveStrategy.clone` (and
therefore through `clone`/`deepClone` in auto mode, which always delegates
to it) yields a *fresh* plain object — not any pre-existing object — whose
property list is keyed exactly by the source's own enumerable string-keyed
property names; the prototype tag is plain and the symbol-keyed and
non-enumerable properties are empty, whatever the source carried. -/
theorem claim9_clone_strips_extras
    (h : Heap) (a fuel : Nat) (pr : ProtoTag)
    (props hid : List (String × Val)) (symN : List (Nat × Val))
    (v2 : Val) (h2 : Heap) (μ : List (Nat × Nat))
    (hwf : h.WF)
    (hnode : h.lookup a = some (.obj pr props symN hid))
    (hclone : RecursiveStrategy.clone fuel h (.ref a) [] = some (v2, h2, μ)) :
    (∀ env, deepClone env fuel h (.ref a) CloneOptions.default =
      some (v2, h2)) ∧
    ∃ props2, v2 = .ref h.next ∧ h.lookup h.next = none ∧
      h2.lookup h.next = some (.obj .plain props2 [] []) ∧
      props2.map Prod.fst = props.map Prod.fst := by
  constructor
  · intro env
    show deepCloneBelowCutoff env fuel h (.ref a) .auto = some (v2, h2)
    simp only [deepCloneBelowCutoff, Types.isPrimitive, Bool.false_eq_true,
      if_false, hclone]
  · match fuel with
    | 0 =>
      exact absurd hclone (by simp [RecursiveStrategy.clone, cloneAux])
    | fuel + 1 =>
      simp only [RecursiveStrategy.clone, cloneAux, lookupA, hnode,
        Heap.alloc] at hclone
      cases hsub : cloneAux fuel ⟨h.next + 1,
          (h.next, .obj .plain [] [] []) :: h.mem⟩
          (.props props ((a, h.next) :: [])) with
      | none => rw [hsub] at hclone; exact absurd hclone (by simp)
      | some r2 =>
        rw [hsub] at hclone
        match r2 with
        | .one _ _ _ => exact absurd hclone (by simp)
        | .many _ _ _ => exact absurd hclone (by simp)
        | .props ps2 h3 seen3 =>
          simp only at hclone
          have heq := Option.some_inj.mp hclone
          injection heq with e1 e23
          injection e23 with e2 e3
          subst e1; subst e2; subst e3
          refine ⟨ps2, rfl, h.lookup_none_of_ge hwf (le_refl _), ?_, ?_⟩
          · exact Heap.set_lookup_self _ _ _
          · exact cloneAux_props_keys fuel _ props _ ps2 h3 seen3 hsub

/-- Witness for C9: a source object carrying a custom prototype tag, a
symbol-keyed property and a non-enumerable property clones to a fresh
plain object holding only the enumerable string-keyed property. -/
theorem claim9_clone_strips_extras_witness :
    (∀ env, deepClone env 10
      ⟨1, [(0, .obj (.custom 5) [("a", .prim (.num 1))]
        [(0, .prim (.num 2))] [("hid", .prim (.num 3))])]⟩
      (.ref 0) CloneOptions.default =
      some (.ref 1,
        ⟨2, [(1, .obj .plain [("a", .prim (.num 1))] [] []),
             (0, .obj (.custom 5) [("a", .prim (.num 1))]
               [(0, .prim (.num 2))] [("hid", .prim (.num 3))])]⟩)) ∧
    (∃ props2, (Val.ref 1 : Val) = .ref 1 ∧
      Heap.lookup ⟨1, [(0, .obj (.custom 5) [("a", .prim (.num 1))]
        [(0, .prim (.num 2))] [("hid", .prim (.num 3))])]⟩ 1 = none ∧
      Heap.lookup ⟨2, [(1, .obj .plain [("a", .prim (.num 1))] [] []),
             (0, .obj (.custom 5) [("a", .prim (.num 1))]
               [(0, .prim (.num 2))] [("hid", .prim (.num 3))])]⟩ 1 =
        some (.obj .plain props2 [] []) ∧
      props2.map Prod.fst = ["a"]) :=
  claim9_clone_strips_extras
    ⟨1, [(0, .obj (.custom 5) [("a", .prim (.num 1))]
      [(0, .prim (.num 2))] [("hid", .prim (.num 3))])]⟩
    0 10 (.custom 5) [("a", .prim (.num 1))] [("hid", .prim (.num 3))]
    [(0, .prim (.num 2))] (.ref 1)
    ⟨2, [(1, .obj .plain [("a", .prim (.num 1))] [] []),
         (0, .obj (.custom 5) [("a", .prim (.num 1))]
           [(0, .prim (.num 2))] [("hid", .prim (.num 3))])]⟩
    [(0, 1)] (by decide) (by decide) (by decide)

/-- The acyclic nested fixture `{a: {b: 1}}`. -/
def nestedHeap : Heap :=
  ⟨2, [(0, .obj .plain [("a", .ref 1)] [] []),
       (1, .obj .plain [("b", .prim (.num 1))] [] [])]⟩

/-- The reference targets among a node's traversal children. -/
def childRefs (nd : Node) : List Nat :=
  nd.children.filterMap Val.refAddr

/-- Every child-reference occurrence of the whole heap, in store order.
`heapRefs h` having no duplicate is the "unshared" certificate: no address
is stored twice as a child reference anywhere, so no sub-object has two
parents (and none is referenced twice by one parent). -/
def heapRefs (h : Heap) : List Nat :=
  (h.mem.map fun p => childRefs p.2).flatten

/-- `b` is reachable from `a` in `n` child-edge steps. -/
inductive ReachesN (h : Heap) : Nat → Nat → Nat → Prop where
  | refl (a : Nat) : ReachesN h a a 0
  | step {a b c n : Nat} {nd : Node} (hl : h.lookup a = some nd)
      (hc : Val.ref b ∈ nd.children) (hr : ReachesN h b c n) :
      ReachesN h a c (n + 1)

/-- Under a ranking certificate, ranks never increase along reachability. -/
theorem reachesN_rank_le {h : Heap} {rank : Nat → Nat}
    (hrank : rankedAcyclic h rank) :
    ∀ {a x n : Nat}, ReachesN h a x n → rank x ≤ rank a := by
  intro a x n hr
  induction hr with
  | refl a => exact le_refl _
  | step hl hc _ ih =>
    exact le_trans ih (le_of_lt (hrank _ (lookupA_mem hl) _
      (children_sub_allVals _ _ hc) _ rfl))

/-- Under a ranking certificate, a nonempty reachability path strictly
decreases rank — in particular no address reaches itself in `> 0` steps. -/
theorem reachesN_rank_lt {h : Heap} {rank : Nat → Nat}
    (hrank : rankedAcyclic h rank) {a x n : Nat} (hpos : 0 < n)
    (hr : ReachesN h a x n) : rank x < rank a := by
  match n, hr with
  | _ + 1, .step hl hc hr2 =>
    exact lt_of_le_of_lt (reachesN_rank_le hrank hr2)
      (hrank _ (lookupA_mem hl) _ (children_sub_allVals _ _ hc) _ rfl)

/-- Reachability paths compose. -/
theorem reachesN_trans {h : Heap} {a b c m n : Nat}
    (h1 : ReachesN h a b m) (h2 : ReachesN h b c n) :
    ReachesN h a c (m + n) := by
  induction h1 with
  | refl a => rw [Nat.zero_add]; exact h2
  | step hl hc _ ih =>
    rw [Nat.add_right_comm]
    exact ReachesN.step hl hc (ih h2)

/-- A nonempty path decomposes at its last edge. -/
theorem reachesN_last_edge {h : Heap} :
    ∀ {n a x : Nat}, ReachesN h a x (n + 1) →
    ∃ q nd, ReachesN h a q n ∧ h.lookup q = some nd ∧
      Val.ref x ∈ nd.children := by
  intro n
  induction n with
  | zero =>
    intro a x hr
    cases hr with
    | step hl hc hr2 => cases hr2 with
      | refl => exact ⟨a, _, ReachesN.refl a, hl, hc⟩
  | succ m ih =>
    intro a x hr
    cases hr with
    | step hl hc hr2 =>
      obtain ⟨q, nd, hq, hql, hqc⟩ := ih hr2
      exact ⟨q, nd, ReachesN.step hl hc hq, hql, hqc⟩

/-- `q` stores a child reference to `x`. -/
def Edge (h : Heap) (q x : Nat) : Prop :=
  ∃ nd, h.lookup q = some nd ∧ Val.ref x ∈ nd.children

/-- In a store whose flattened child-reference list has no duplicate, two
entries both storing a reference to `x` are the same entry. -/
theorem refs_unique : ∀ (l : List (Nat × Node)),
    ((l.map fun p => childRefs p.2).flatten).Nodup →
    ∀ (q1 : Nat) (nd1 : Node) (q2 : Nat) (nd2 : Node) (x : Nat),
    (q1, nd1) ∈ l → (q2, nd2) ∈ l →
    x ∈ childRefs nd1 → x ∈ childRefs nd2 → q1 = q2 := by
  intro l
  induction l with
  | nil =>
    intro _ q1 nd1 q2 nd2 x h1 _ _ _
    exact absurd h1 (List.not_mem_nil _)
  | cons p rest ih =>
    intro hn q1 nd1 q2 nd2 x h1 h2 hx1 hx2
    rw [List.map_cons, List.flatten_cons, List.nodup_append] at hn
    cases h1 with
    | head =>
      cases h2 with
      | head => rfl
      | tail _ h2t =>
        exact absurd hx2 (fun hx2m => hn.2.2 hx1
          (List.mem_flatten.mpr ⟨childRefs nd2,
            List.mem_map_of_mem _ h2t, hx2m⟩))
    | tail _ h1t =>
      cases h2 with
      | head =>
        exact absurd hx1 (fun hx1m => hn.2.2 hx2
          (List.mem_flatten.mpr ⟨childRefs nd1,
            List.mem_map_of_mem _ h1t, hx1m⟩))
      | tail _ h2t => exact ih hn.2.1 q1 nd1 q2 nd2 x h1t h2t hx1 hx2

/-- With the unshared certificate, each address has at most one incoming
child-reference edge. -/
theorem edge_unique {h : Heap} (hn : (heapRefs h).Nodup)
    {q1 q2 x : Nat} (h1 : Edge h q1 x) (h2 : Edge h q2 x) : q1 = q2 := by
  obtain ⟨nd1, hl1, hc1⟩ := h1
  obtain ⟨nd2, hl2, hc2⟩ := h2
  exact refs_unique h.mem hn q1 nd1 q2 nd2 x (lookupA_mem hl1)
    (lookupA_mem hl2)
    (List.mem_filterMap.mpr ⟨.ref x, hc1, rfl⟩)
    (List.mem_filterMap.mpr ⟨.ref x, hc2, rfl⟩)

/-- With the unshared certificate, each node's own child-reference list has
no duplicate. -/
theorem childRefs_nodup : ∀ (l : List (Nat × Node)),
    ((l.map fun p => childRefs p.2).flatten).Nodup →
    ∀ p ∈ l, (childRefs p.2).Nodup := by
  intro l
  induction l with
  | nil => intro _ p hp; exact absurd hp (List.not_mem_nil _)
  | cons q rest ih =>
    intro hn p hp
    rw [List.map_cons, List.flatten_cons, List.nodup_append] at hn
    cases hp with
    | head => exact hn.1
    | tail _ hpt => exact ih hn.2.1 p hpt

/-- Two child values reach disjoint address sets (vacuous for primitives). -/
def disjR (h : Heap) (u v : Val) : Prop :=
  ∀ (b1 b2 x n1 n2 : Nat), u = .ref b1 → v = .ref b2 →
    ReachesN h b1 x n1 → ReachesN h b2 x n2 → False

/-- Under the unshared and acyclicity certificates, two *distinct*
references stored in one node reach disjoint address sets: a common
descendant would need two incoming edges (impossible by uniqueness) or a
cycle through the parent (impossible by rank). -/
theorem reach_disjoint {h : Heap} {rank : Nat → Nat} {a : Nat} {nd : Node}
    (hn : (heapRefs h).Nodup) (hrank : rankedAcyclic h rank)
    (hl : h.lookup a = some nd) :
    ∀ (N : Nat), ∀ (n1 n2 b1 b2 x : Nat), n1 + n2 ≤ N →
    Val.ref b1 ∈ nd.children → Val.ref b2 ∈ nd.children → b1 ≠ b2 →
    ReachesN h b1 x n1 → ReachesN h b2 x n2 → False := by
  intro N
  induction N using Nat.strong_induction_on with
  | _ N ihN =>
    intro n1 n2 b1 b2 x hle hc1 hc2 hne hr1 hr2
    match n1, hr1 with
    | 0, hr1 =>
      cases hr1
      match n2, hr2 with
      | 0, hr2 => cases hr2; exact hne rfl
      | m + 1, hr2 =>
        obtain ⟨q, nd2, hq, hql, hqc⟩ := reachesN_last_edge hr2
        have hqa : q = a := edge_unique hn ⟨nd2, hql, hqc⟩ ⟨nd, hl, hc1⟩
        rw [hqa] at hq
        have hcyc : ReachesN h a a (1 + m) :=
          reachesN_trans (ReachesN.step hl hc2 (ReachesN.refl b2)) hq
        exact absurd (reachesN_rank_lt hrank (by omega) hcyc) (lt_irrefl _)
    | k + 1, hr1 =>
      match n2, hr2 with
      | 0, hr2 =>
        cases hr2
        obtain ⟨q, nd1, hq, hql, hqc⟩ := reachesN_last_edge hr1
        have hqa : q = a := edge_unique hn ⟨nd1, hql, hqc⟩ ⟨nd, hl, hc2⟩
        rw [hqa] at hq
        have hcyc : ReachesN h a a (1 + k) :=
          reachesN_trans (ReachesN.step hl hc1 (ReachesN.refl b1)) hq
        exact absurd (reachesN_rank_lt hrank (by omega) hcyc) (lt_irrefl _)
      | m + 1, hr2 =>
        obtain ⟨q1, nd1, hq1, hql1, hqc1⟩ := reachesN_last_edge hr1
        obtain ⟨q2, nd2, hq2, hql2, hqc2⟩ := reachesN_last_edge hr2
        have hq12 : q1 = q2 :=
          edge_unique hn ⟨nd1, hql1, hqc1⟩ ⟨nd2, hql2, hqc2⟩
        rw [← hq12] at hq2
        exact ihN (k + m) (by omega) k m b1 b2 q1 (le_refl _)
          hc1 hc2 hne hq1 hq2

/-- A node's children list is pairwise reach-disjoint (certificates as in
`reach_disjoint`; a duplicated reference value is ruled out by the node's
own `childRefs` having no duplicate). -/
theorem pairwise_disjR {h : Heap} {rank : Nat → Nat} {a : Nat} {nd : Node}
    (hn : (heapRefs h).Nodup) (hrank : rankedAcyclic h rank)
    (hl : h.lookup a = some nd) :
    ∀ (l : List Val), (∀ v ∈ l, v ∈ nd.children) →
    (l.filterMap Val.refAddr).Nodup → l.Pairwise (disjR h) := by
  intro l
  induction l with
  | nil => intro _ _; exact List.Pairwise.nil
  | cons v rest ih =>
    intro hsub hnd
    have htail : (rest.filterMap Val.refAddr).Nodup := by
      cases v with
      | prim p => simpa [List.filterMap_cons, Val.refAddr] using hnd
      | ref b =>
        rw [show (Val.ref b :: rest).filterMap Val.refAddr =
          b :: rest.filterMap Val.refAddr by
            simp [List.filterMap_cons, Val.refAddr]] at hnd
        exact (List.nodup_cons.mp hnd).2
    refine List.Pairwise.cons ?_
      (ih (fun u hu => hsub u (List.mem_cons_of_mem _ hu)) htail)
    intro u hu b1 b2 x n1 n2 hv hub hr1 hr2
    subst hv
    subst hub
    by_cases he : b1 = b2
    · subst he
      have hb1 : b1 ∈ rest.filterMap Val.refAddr :=
        List.mem_filterMap.mpr ⟨.ref b1, hu, rfl⟩
      rw [show (Val.ref b1 :: rest).filterMap Val.refAddr =
        b1 :: rest.filterMap Val.refAddr by
          simp [List.filterMap_cons, Val.refAddr]] at hnd
      exact (List.nodup_cons.mp hnd).1 hb1
    · exact reach_disjoint hn hrank hl (n1 + n2) n1 n2 b1 b2 x (le_refl _)
        (hsub _ (List.mem_cons_self _ _))
        (hsub _ (List.mem_cons_of_mem _ hu)) he hr1 hr2

/-- `x` is reachable from the value `v` (so `v` is a reference). -/
def RV (h : Heap) (v : Val) (x : Nat) : Prop :=
  ∃ b n, v = .ref b ∧ ReachesN h b x n

/-- The addresses a traversal task can reach. -/
def CircReach (h : Heap) : CircArg → Nat → Prop
  | .one v, x => RV h v x
  | .many vs, x => ∃ u ∈ vs, RV h u x

/-- Precondition of the no-revisit invariant: nothing the task can reach is
already in the visited set, and for a child list the children's reach-sets
are pairwise disjoint. -/
def CircPre (h : Heap) : CircArg → List Nat → Prop
  | .one v, seen => ∀ x, RV h v x → x ∉ seen
  | .many vs, seen =>
    (∀ x, (∃ u ∈ vs, RV h u x) → x ∉ seen) ∧ vs.Pairwise (disjR h)

/-- The DFS of `Types.isCircular` never meets a visited container when run
on an unshared (`heapRefs` duplicate-free) acyclic (rank-certified) heap
from a task satisfying `CircPre`: whenever it completes it answers
`false`, and the final visited set holds only old entries and addresses
the task reaches. -/
theorem isCircularAux_no_revisit :
    ∀ (fuel : Nat) (h : Heap) (rank : Nat → Nat),
    (heapRefs h).Nodup → rankedAcyclic h rank →
    ∀ (arg : CircArg) (seen : List Nat) (ans : Bool) (s2 : List Nat),
    isCircularAux fuel h arg seen = some (ans, s2) →
    CircPre h arg seen →
    ans = false ∧ ∀ x ∈ s2, x ∈ seen ∨ CircReach h arg x := by
  intro fuel
  induction fuel with
  | zero =>
    intro h rank hn hrank arg seen ans s2 hres _
    exact absurd hres (by simp [isCircularAux])
  | succ fuel ih =>
    intro h rank hn hrank arg seen ans s2 hres hpre
    match arg with
    | .one (.prim p) =>
      simp only [isCircularAux] at hres
      have heq := Option.some_inj.mp hres
      injection heq with e1 e2
      subst e1
      subst e2
      exact ⟨rfl, fun x hx => Or.inl hx⟩
    | .one (.ref a) =>
      simp only [isCircularAux] at hres
      have ha : a ∉ seen := hpre a ⟨a, 0, rfl, ReachesN.refl a⟩
      rw [if_neg ha] at hres
      cases hla : h.lookup a with
      | none => rw [hla] at hres; exact absurd hres (by simp)
      | some nd =>
        rw [hla] at hres
        have hpre2 : CircPre h (.many nd.children) (a :: seen) := by
          constructor
          · intro x hx hmemx
            obtain ⟨u, hu, b, n, hub, hr⟩ := hx
            subst hub
            have hrax : ReachesN h a x (n + 1) := ReachesN.step hla hu hr
            cases hmemx with
            | head =>
              exact absurd (reachesN_rank_lt hrank (Nat.succ_pos n) hrax)
                (lt_irrefl _)
            | tail _ hmx => exact hpre x ⟨a, n + 1, rfl, hrax⟩ hmx
          · exact pairwise_disjR hn hrank hla nd.children (fun v hv => hv)
              (childRefs_nodup h.mem hn (a, nd) (lookupA_mem hla))
        obtain ⟨hans, hchar⟩ := ih h rank hn hrank (.many nd.children)
          (a :: seen) ans s2 hres hpre2
        refine ⟨hans, ?_⟩
        intro x hx
        rcases hchar x hx with hx2 | hx2
        · cases hx2 with
          | head => exact Or.inr ⟨a, 0, rfl, ReachesN.refl a⟩
          | tail _ hmx => exact Or.inl hmx
        · obtain ⟨u, hu, b, n, hub, hr⟩ := hx2
          subst hub
          exact Or.inr ⟨a, n + 1, rfl, ReachesN.step hla hu hr⟩
    | .many [] =>
      simp only [isCircularAux] at hres
      have heq := Option.some_inj.mp hres
      injection heq with e1 e2
      subst e1
      subst e2
      exact ⟨rfl, fun x hx => Or.inl hx⟩
    | .many (v :: vs) =>
      obtain ⟨hpre1all, hpw⟩ := hpre
      simp only [isCircularAux] at hres
      cases hhead : isCircularAux fuel h (.one v) seen with
      | none => rw [hhead] at hres; exact absurd hres (by simp)
      | some r1 =>
        rw [hhead] at hres
        obtain ⟨b1, s1⟩ := r1
        have hpre1 : CircPre h (.one v) seen := fun x hx =>
          hpre1all x ⟨v, List.mem_cons_self v vs, hx⟩
        obtain ⟨hb1, hchar1⟩ := ih h rank hn hrank (.one v) seen b1 s1
          hhead hpre1
        subst hb1
        simp only at hres
        have hpre2 : CircPre h (.many vs) s1 := by
          constructor
          · intro x hx hxs1
            rcases hchar1 x hxs1 with hxseen | hxRV
            · obtain ⟨u, hu, hRVu⟩ := hx
              exact hpre1all x ⟨u, List.mem_cons_of_mem v hu, hRVu⟩ hxseen
            · obtain ⟨u, hu, hRVu⟩ := hx
              have hd : disjR h v u := (List.pairwise_cons.mp hpw).1 u hu
              obtain ⟨bv, nv, hvb, hrv⟩ := hxRV
              obtain ⟨bu, nu, hub, hru⟩ := hRVu
              exact hd bv bu x nv nu hvb hub hrv hru
          · exact (List.pairwise_cons.mp hpw).2
        obtain ⟨hans, hchar2⟩ := ih h rank hn hrank (.many vs) s1 ans s2
          hres hpre2
        refine ⟨hans, ?_⟩
        intro x hx
        rcases hchar2 x hx with hxs1 | hxR
        · rcases hchar1 x hxs1 with hxseen | hxRV
          · exact Or.inl hxseen
          · exact Or.inr ⟨v, List.mem_cons_self v vs, hxRV⟩
        · obtain ⟨u, hu, hRVu⟩ := hxR
          exact Or.inr ⟨u, List.mem_cons_of_mem v hu, hRVu⟩

/-- C4 counterexample: the two-parent shared graph
`shared = {x:1}; root = {p: shared, q: shared}` is acyclic (certified by a
rank function every stored reference strictly decreases), yet
`Types.isCircular` reports `true` for it, because the visited set is
shared across sibling traversals and never shrinks: the second reference
to `shared` counts as a revisit.  The claim says `containsCycle` is false
for every acyclic graph including exactly this sharing shape. -/
theorem claim4_containsCycle_counterexample :
    rankedAcyclic sharedHeap (fun a => if a = 0 then 1 else 0) ∧
    Types.isCircular 10 sharedHeap (.ref 0) = some true := by
  constructor
  · decide
  · decide

/-- C4 (amended): `Types.isCircular` returns false for every atomic value
(any fuel, heap); whenever its traversal completes on an *unshared*
(`heapRefs` duplicate-free: no sub-object has two incoming references)
*acyclic* (rank-certified) heap, from any start value, it returns false;
and it returns true the moment it meets a container already in the
traversal-wide visited set (any heap, fuel, visited set) — which is why it
also reports true for the acyclic-but-shared counterexample graph, not
only for genuine cycles; the spec's cyclic and shared fixtures both
report true. -/
theorem claim4_containsCycle_amended :
    (∀ (fuel : Nat) (h : Heap) (p : Prim),
      Types.isCircular (fuel + 1) h (.prim p) = some false) ∧
    (∀ (fuel : Nat) (h : Heap) (rank : Nat → Nat) (v : Val) (ans : Bool),
      (heapRefs h).Nodup → rankedAcyclic h rank →
      Types.isCircular fuel h v = some ans → ans = false) ∧
    (∀ (fuel : Nat) (h : Heap) (a : Nat) (seen : List Nat), a ∈ seen →
      isCircularAux (fuel + 1) h (.one (.ref a)) seen = some (true, seen)) ∧
    Types.isCircular 10 cycleHeap (.ref 0) = some true ∧
    Types.isCircular 10 sharedHeap (.ref 0) = some true := by
  refine ⟨?_, ?_, ?_, by decide, by decide⟩
  · intro fuel h p
    rfl
  · intro fuel h rank v ans hn hrank hrun
    simp only [Types.isCircular] at hrun
    cases hres : isCircularAux fuel h (.one v) [] with
    | none => rw [hres] at hrun; exact absurd hrun (by simp)
    | some r =>
      rw [hres] at hrun
      obtain ⟨b, s⟩ := r
      simp only [Option.map_some'] at hrun
      have hb := Option.some_inj.mp hrun
      subst hb
      exact (isCircularAux_no_revisit fuel h rank hn hrank (.one v) [] b s
        hres (fun x _ => List.not_mem_nil x)).1
  · intro fuel h a seen ha
    simp only [isCircularAux, if_pos ha]

/-- Witness for C4's amended clauses at concrete inputs: the nested tree
fixture `{a:{b:1}}` is unshared (duplicate-free `heapRefs`) and acyclic
(rank-certified), and `Types.isCircular` reports false on it; and a call
that reaches container 0 with 0 already visited returns true at once. -/
theorem claim4_containsCycle_amended_witness :
    (heapRefs nestedHeap).Nodup ∧
    rankedAcyclic nestedHeap (fun a => 1 - a) ∧
    Types.isCircular 10 nestedHeap (.ref 0) = some false ∧
    isCircularAux 10 cycleHeap (.one (.ref 0)) [0] = some (true, [0]) := by
  refine ⟨by decide, by decide, ?_,
    claim4_containsCycle_amended.2.2.1 9 cycleHeap 0 [0] (by decide)⟩
  cases hr : Types.isCircular 10 nestedHeap (.ref 0) with
  | none => exact absurd hr (by decide)
  | some ans =>
    rw [claim4_containsCycle_amended.2.1 10 nestedHeap (fun a => 1 - a)
      (.ref 0) ans (by decide) (by decide) hr]

/-- The C1 failing input `{a: undefined}`: a cycle-free object that
`JSON.stringify` accepts (so `JsonStrategy.canHandle` reports true). -/
def undefPropHeap : Heap :=
  ⟨1, [(0, .obj .plain [("a", .prim .undef)] [] [])]⟩

/-- C1: the `auto` path of `deepClone` never returns an eligible
strategy's result: its selection loop computes each `canHandle` but its
body only `continue`s, so for every non-primitive value the function
returns `RecursiveStrategy.clone`'s result, identical to forcing the
`recursive` strategy.  On the JSON-compatible `{a: undefined}` this
observably diverges from the spec's first-eligible contract (modelled by
`specAutoCloneNoStructured` for an environment without the native
structural clone): the serialization strategy drops the `undefined`
property, producing `{}`, while the code's clone keeps it. -/
theorem claim1_auto_ignores_strategy_selection :
    (∀ (env : Bool) (fuel : Nat) (h : Heap) (a : Nat),
      deepClone env fuel h (.ref a) CloneOptions.default =
        deepClone env fuel h (.ref a) ⟨.recursive, none, 0⟩) ∧
    (∀ env, deepClone env 10 undefPropHeap (.ref 0) CloneOptions.default =
      some (.ref 1,
        ⟨2, [(1, .obj .plain [("a", .prim .undef)] [] []),
             (0, .obj .plain [("a", .prim .undef)] [] [])]⟩)) ∧
    JsonStrategy.canHandle 10 undefPropHeap (.ref 0) = some true ∧
    specAutoCloneNoStructured 10 undefPropHeap (.ref 0) =
      some (.ref 1,
        ⟨2, [(1, .obj .plain [] [] []),
             (0, .obj .plain [("a", .prim .undef)] [] [])]⟩) ∧
    (Node.obj .plain [("a", .prim .undef)] [] [] : Node) ≠
      .obj .plain [] [] [] := by
  refine ⟨?_, ?_, by decide, by decide, by decide⟩
  · intro env fuel h a
    rfl
  · intro env
    cases env <;> decide

/-- C2: the depth cutoff only acts at the root.  The first conjunct (which
holds) is the `currentDepth >= maxDepth` identity return — in particular
`maxDepth: 0` returns the original value by reference with the heap
untouched.  But for `maxDepth = 1` on `{a: {b: 1}}` the engine hands the
whole value to `RecursiveStrategy.clone`, which takes no depth parameter
(and `currentDepth` is never incremented anywhere), so the result's `a` is
a *fresh* object (address 3, unallocated in the source heap), not the
original's `a` subtree (address 1) that the claim — and the source's own
JSDoc example — says is shared by reference beyond the cutoff. -/
theorem claim2_maxDepth_cutoff_only_at_root :
    (∀ (env : Bool) (fuel : Nat) (h : Heap) (v : Val) (strat : Strategy)
      (m cd : Nat), m ≤ cd →
      deepClone env fuel h v ⟨strat, some m, cd⟩ = some (v, h)) ∧
    (∀ env, deepClone env 10 nestedHeap (.ref 0) ⟨.auto, some 1, 0⟩ =
      some (.ref 2,
        ⟨4, [(3, .obj .plain [("b", .prim (.num 1))] [] []),
             (2, .obj .plain [("a", .ref 3)] [] []),
             (0, .obj .plain [("a", .ref 1)] [] []),
             (1, .obj .plain [("b", .prim (.num 1))] [] [])]⟩)) ∧
    resolve ⟨4, [(3, .obj .plain [("b", .prim (.num 1))] [] []),
             (2, .obj .plain [("a", .ref 3)] [] []),
             (0, .obj .plain [("a", .ref 1)] [] []),
             (1, .obj .plain [("b", .prim (.num 1))] [] [])]⟩
        (.ref 2) [Step.field "a"] = some (.ref 3) ∧
    (Val.ref 3 : Val) ≠ .ref 1 ∧ nestedHeap.lookup 3 = none := by
  refine ⟨?_, ?_, by decide, by decide, by decide⟩
  · intro env fuel h v strat m cd hm
    simp [deepClone, ge_iff_le, hm]
  · intro env
    cases env <;> decide

/-- Witness for C2's first conjunct: `maxDepth: 0` returns the very same
root reference and heap. -/
theorem claim2_maxDepth_cutoff_only_at_root_witness :
    deepClone false 10 nestedHeap (.ref 0) ⟨.auto, some 0, 0⟩ =
      some (.ref 0, nestedHeap) :=
  claim2_maxDepth_cutoff_only_at_root.1 false 10 nestedHeap (.ref 0)
    .auto 0 0 (by decide)

/-- C10: the empty string, a dots-only string and the empty segment list
all parse to the empty segment sequence, and `Utils.setPath` (the `write`
underlying `updateAt`) applied with such a path raises no error: the
source evaluates `keys[keys.length - 1]` to `undefined`, so it assigns
the value under the literal property key `"undefined"` on the root
container and returns that same container reference. -/
theorem claim10_empty_path_writes_undefined_key
    (h : Heap) (a : Nat) (pr : ProtoTag)
    (props hid : List (String × Val)) (symN : List (Nat × Val))
    (v : Val) (pa : Utils.PathArg)
    (hparse : Utils.parsePath pa = [])
    (hnode : h.lookup a = some (.obj pr props symN hid)) :
    Utils.parsePath (.str "") = [] ∧
    Utils.parsePath (.str "...") = [] ∧
    Utils.parsePath (.list []) = [] ∧
    Utils.setPath h (.ref a) pa v =
      some (.ref a,
        h.set a (.obj pr (updateA props "undefined" v) symN hid)) := by
  refine ⟨by decide, by decide, rfl, ?_⟩
  simp [Utils.setPath, hparse, Utils.setPathNav, Utils.setPathNavT,
    Utils.assignPropT, hnode, Option.map]

/-- Witness for C10: writing `42` with the empty string path on
`{a:{b:1}}` appends the property `"undefined": 42` on the root. -/
theorem claim10_empty_path_writes_undefined_key_witness :
    Utils.parsePath (.str "") = [] ∧
    Utils.parsePath (.str "...") = [] ∧
    Utils.parsePath (.list []) = [] ∧
    Utils.setPath nestedHeap (.ref 0) (.str "") (.prim (.num 42)) =
      some (.ref 0, nestedHeap.set 0
        (.obj .plain (updateA [("a", .ref 1)] "undefined"
          (.prim (.num 42))) [] [])) :=
  claim10_empty_path_writes_undefined_key nestedHeap 0 .plain
    [("a", .ref 1)] [] [] (.prim (.num 42)) (.str "") (by decide)
    (by decide)

theorem setPathNavT_spec : ∀ (keys : List String) (h : Heap) (cur : Nat)
    (v : Val) (h' : Heap) (visited : List Nat),
    Utils.setPathNavT h (.ref cur) keys v = some (h', visited) →
    h.WF →
    h.next ≤ h'.next ∧ h'.WF ∧
    (∀ x, x < h.next → x ∉ visited → h'.lookup x = h.lookup x) ∧
    (∀ n₀, n₀ ≤ h.next → RegionClosed n₀ h → n₀ ≤ cur →
      ∀ x ∈ visited, n₀ ≤ x) ∧
    (keys ≠ [] → visited.Nodup →
      Utils.getPathGo h' (.ref cur) keys (.prim .undef) = v) := by
  intro keys
  induction keys with
  | nil =>
    intro h cur v h' visited hrun hwf
    simp only [Utils.setPathNavT, Utils.assignPropT] at hrun
    cases hnd : h.lookup cur with
    | none => rw [hnd] at hrun; exact absurd hrun (by simp)
    | some nd =>
      rw [hnd] at hrun
      match nd with
      | .arr _ => exact absurd hrun (by simp)
      | .date _ => exact absurd hrun (by simp)
      | .regexp _ _ => exact absurd hrun (by simp)
      | .obj pr props sym hid =>
        simp only at hrun
        have heq := Option.some_inj.mp hrun
        injection heq with e1 e2
        subst e1; subst e2
        have hcur : cur < h.next := hwf.2 _ (lookupA_mem hnd)
        refine ⟨le_refl _, hwf.set hcur, ?_, ?_, ?_⟩
        · intro x _ hx2
          have : x ≠ cur := by
            intro he; exact hx2 (he ▸ List.mem_cons_self _ _)
          exact Heap.set_lookup_ne h cur x _ (fun he => this he.symm)
        · intro n₀ _ _ hcur2 x hx
          rcases List.mem_cons.mp hx with h1 | h1
          · exact h1 ▸ hcur2
          · simp at h1
        · intro hne; exact absurd rfl hne
  | cons k rest ih =>
    intro h cur v h' visited hrun hwf
    match rest with
    | [] =>
      simp only [Utils.setPathNavT, Utils.assignPropT] at hrun
      cases hnd : h.lookup cur with
      | none => rw [hnd] at hrun; exact absurd hrun (by simp)
      | some nd =>
        rw [hnd] at hrun
        match nd with
        | .arr _ => exact absurd hrun (by simp)
        | .date _ => exact absurd hrun (by simp)
        | .regexp _ _ => exact absurd hrun (by simp)
        | .obj pr props sym hid =>
          simp only at hrun
          have heq := Option.some_inj.mp hrun
          injection heq with e1 e2
          subst e1; subst e2
          have hcur : cur < h.next := hwf.2 _ (lookupA_mem hnd)
          refine ⟨le_refl _, hwf.set hcur, ?_, ?_, ?_⟩
          · intro x _ hx2
            have : x ≠ cur := by
              intro he; exact hx2 (he ▸ List.mem_cons_self _ _)
            exact Heap.set_lookup_ne h cur x _ (fun he => this he.symm)
          · intro n₀ _ _ hcur2 x hx
            rcases List.mem_cons.mp hx with h1 | h1
            · exact h1 ▸ hcur2
            · simp at h1
          · intro _ _
            show Utils.getPathGo _ (Utils.walkRead _ cur k) [] _ = v
            have hw : Utils.walkRead (h.set cur
                (.obj pr (updateA props k v) sym hid)) cur k = v := by
              simp only [Utils.walkRead, Heap.set_lookup_self,
                lookupA_updateA_self, Option.getD_some]
            rw [hw]
            simp only [Utils.getPathGo]
            by_cases hv : v = .prim .undef
            · rw [if_pos hv, hv]
            · rw [if_neg hv]
    | k2 :: rest2 =>
      simp only [Utils.setPathNavT] at hrun
      cases hnd : h.lookup cur with
      | none => rw [hnd] at hrun; exact absurd hrun (by simp)
      | some nd =>
        rw [hnd] at hrun
        match nd with
        | .arr _ => exact absurd hrun (by simp)
        | .date _ => exact absurd hrun (by simp)
        | .regexp _ _ => exact absurd hrun (by simp)
        | .obj pr props sym hid =>
          simp only at hrun
          have hcur : cur < h.next := hwf.2 _ (lookupA_mem hnd)
          cases hpk : lookupA props k with
          | some c0 =>
            match c0 with
            | .ref c =>
              rw [hpk] at hrun
              simp only at hrun
              cases hsub : Utils.setPathNavT h (.ref c) (k2 :: rest2) v with
              | none => rw [hsub] at hrun; exact absurd hrun (by simp)
              | some pr2 =>
                rw [hsub] at hrun
                obtain ⟨h2, vis⟩ := pr2
                simp only at hrun
                have heq := Option.some_inj.mp hrun
                injection heq with e1 e2
                subst e1; subst e2
                obtain ⟨hmono, hwf2, hframe, hhigh, hget⟩ :=
                  ih h c v h2 vis hsub hwf
                refine ⟨hmono, hwf2, ?_, ?_, ?_⟩
                · intro x hx1 hx2
                  refine hframe x hx1 ?_
                  intro hmem
                  exact hx2 (List.mem_cons_of_mem _ hmem)
                · intro n₀ hn1 hreg hcur2 x hx
                  rcases List.mem_cons.mp hx with h1 | h1
                  · exact h1 ▸ hcur2
                  · refine hhigh n₀ hn1 hreg ?_ x h1
                    have hcmem : Val.ref c ∈
                        Node.allVals (.obj pr props sym hid) := by
                      simp only [Node.allVals, List.mem_append]
                      exact Or.inl (Or.inl
                        (List.mem_map.mpr ⟨_, lookupA_mem hpk, rfl⟩))
                    exact hreg (cur, _) (lookupA_mem hnd) hcur2 _ hcmem
                · intro _ hnodup
                  rw [List.nodup_cons] at hnodup
                  show Utils.getPathGo h2 (Utils.walkRead h2 cur k)
                    (k2 :: rest2) _ = v
                  have hw : Utils.walkRead h2 cur k = .ref c := by
                    simp only [Utils.walkRead]
                    rw [hframe cur hcur hnodup.1, hnd]
                    show (lookupA props k).getD (.prim .undef) = .ref c
                    rw [hpk]
                    rfl
                  rw [hw]
                  exact hget (by simp) hnodup.2
            | .prim p0 =>
              rw [hpk] at hrun
              simp only [Heap.alloc] at hrun
              cases hsub : Utils.setPathNavT
                  (Heap.set ⟨h.next + 1, (h.next, .obj .plain [] [] []) :: h.mem⟩
                    cur (.obj pr (updateA props k (.ref h.next)) sym hid))
                  (.ref h.next) (k2 :: rest2) v with
              | none => rw [hsub] at hrun; exact absurd hrun (by simp)
              | some pr2 =>
                rw [hsub] at hrun
                obtain ⟨h3, vis⟩ := pr2
                simp only at hrun
                have heq := Option.some_inj.mp hrun
                injection heq with e1 e2
                subst e1; subst e2
                have hwfmid : (Heap.set
                    ⟨h.next + 1, (h.next, .obj .plain [] [] []) :: h.mem⟩
                    cur (.obj pr (updateA props k (.ref h.next)) sym hid)).WF :=
                  Heap.WF.set (Heap.WF.alloc hwf) (Nat.lt_succ_of_lt hcur)
                obtain ⟨hmono, hwf2, hframe, hhigh, hget⟩ :=
                  ih _ h.next v h3 vis hsub hwfmid
                refine ⟨le_trans (Nat.le_succ _) hmono, hwf2, ?_, ?_, ?_⟩
                · intro x hx1 hx2
                  have hxc : x ≠ cur := by
                    intro he; exact hx2 (he ▸ List.mem_cons_self _ _)
                  have hxm : x ∉ vis := fun hm =>
                    hx2 (List.mem_cons_of_mem _ hm)
                  rw [hframe x (Nat.lt_succ_of_lt hx1) hxm]
                  rw [Heap.set_lookup_ne _ cur x _ (fun he => hxc he.symm)]
                  exact Heap.alloc_lookup_ne h _ x (Nat.ne_of_lt hx1)
                · intro n₀ hn1 hreg hcur2 x hx
                  rcases List.mem_cons.mp hx with h1 | h1
                  · exact h1 ▸ hcur2
                  · refine hhigh n₀ (le_trans hn1 (Nat.le_succ _)) ?_
                      (le_trans hn1 (le_refl _)) x h1
                    intro pnode hpmem hp1 w hw
                    rcases mem_updateA hpmem with he | he
                    · subst he
                      simp only [Node.allVals, List.mem_append] at hw
                      rcases hw with (hw | hw) | hw
                      · rcases List.mem_map.mp hw with ⟨q, hq, hqw⟩
                        rcases mem_updateA hq with he2 | he2
                        · rw [he2] at hqw
                          rw [← hqw]
                          exact hn1
                        · refine hreg (cur, .obj pr props sym hid)
                            (lookupA_mem hnd) hp1 w ?_
                          simp only [Node.allVals, List.mem_append]
                          exact Or.inl (Or.inl (List.mem_map.mpr ⟨q, he2, hqw⟩))
                      · refine hreg (cur, .obj pr props sym hid)
                          (lookupA_mem hnd) hp1 w ?_
                        simp only [Node.allVals, List.mem_append]
                        exact Or.inl (Or.inr hw)
                      · refine hreg (cur, .obj pr props sym hid)
                          (lookupA_mem hnd) hp1 w ?_
                        simp only [Node.allVals, List.mem_append]
                        exact Or.inr hw
                    · rcases List.mem_cons.mp he with he2 | he2
                      · rw [he2] at hw
                        simp [Node.allVals] at hw
                      · exact hreg pnode he2 hp1 w hw
                · intro _ hnodup
                  rw [List.nodup_cons] at hnodup
                  show Utils.getPathGo h3 (Utils.walkRead h3 cur k)
                    (k2 :: rest2) _ = v
                  have hw : Utils.walkRead h3 cur k = .ref h.next := by
                    simp only [Utils.walkRead]
                    rw [hframe cur (Nat.lt_succ_of_lt hcur) hnodup.1]
                    rw [Heap.set_lookup_self]
                    show (lookupA (updateA props k (.ref h.next)) k).getD
                      (.prim .undef) = .ref h.next
                    rw [lookupA_updateA_self]
                    rfl
                  rw [hw]
                  exact hget (by simp) hnodup.2
          | none =>
            rw [hpk] at hrun
            simp only [Heap.alloc] at hrun
            cases hsub : Utils.setPathNavT
                (Heap.set ⟨h.next + 1, (h.next, .obj .plain [] [] []) :: h.mem⟩
                  cur (.obj pr (updateA props k (.ref h.next)) sym hid))
                (.ref h.next) (k2 :: rest2) v with
            | none => rw [hsub] at hrun; exact absurd hrun (by simp)
            | some pr2 =>
              rw [hsub] at hrun
              obtain ⟨h3, vis⟩ := pr2
              simp only at hrun
              have heq := Option.some_inj.mp hrun
              injection heq with e1 e2
              subst e1; subst e2
              have hwfmid : (Heap.set
                  ⟨h.next + 1, (h.next, .obj .plain [] [] []) :: h.mem⟩
                  cur (.obj pr (updateA props k (.ref h.next)) sym hid)).WF :=
                Heap.WF.set (Heap.WF.alloc hwf) (Nat.lt_succ_of_lt hcur)
              obtain ⟨hmono, hwf2, hframe, hhigh, hget⟩ :=
                ih _ h.next v h3 vis hsub hwfmid
              refine ⟨le_trans (Nat.le_succ _) hmono, hwf2, ?_, ?_, ?_⟩
              · intro x hx1 hx2
                have hxc : x ≠ cur := by
                  intro he; exact hx2 (he ▸ List.mem_cons_self _ _)
                have hxm : x ∉ vis := fun hm =>
                  hx2 (List.mem_cons_of_mem _ hm)
                rw [hframe x (Nat.lt_succ_of_lt hx1) hxm]
                rw [Heap.set_lookup_ne _ cur x _ (fun he => hxc he.symm)]
                exact Heap.alloc_lookup_ne h _ x (Nat.ne_of_lt hx1)
              · intro n₀ hn1 hreg hcur2 x hx
                rcases List.mem_cons.mp hx with h1 | h1
                · exact h1 ▸ hcur2
                · refine hhigh n₀ (le_trans hn1 (Nat.le_succ _)) ?_
                    (le_trans hn1 (le_refl _)) x h1
                  intro pnode hpmem hp1 w hw
                  rcases mem_updateA hpmem with he | he
                  · subst he
                    simp only [Node.allVals, List.mem_append] at hw
                    rcases hw with (hw | hw) | hw
                    · rcases List.mem_map.mp hw with ⟨q, hq, hqw⟩
                      rcases mem_updateA hq with he2 | he2
                      · rw [he2] at hqw
                        rw [← hqw]
                        exact hn1
                      · refine hreg (cur, .obj pr props sym hid)
                          (lookupA_mem hnd) hp1 w ?_
                        simp only [Node.allVals, List.mem_append]
                        exact Or.inl (Or.inl (List.mem_map.mpr ⟨q, he2, hqw⟩))
                    · refine hreg (cur, .obj pr props sym hid)
                        (lookupA_mem hnd) hp1 w ?_
                      simp only [Node.allVals, List.mem_append]
                      exact Or.inl (Or.inr hw)
                    · refine hreg (cur, .obj pr props sym hid)
                        (lookupA_mem hnd) hp1 w ?_
                      simp only [Node.allVals, List.mem_append]
                      exact Or.inr hw
                  · rcases List.mem_cons.mp he with he2 | he2
                    · rw [he2] at hw
                      simp [Node.allVals] at hw
                    · exact hreg pnode he2 hp1 w hw
              · intro _ hnodup
                rw [List.nodup_cons] at hnodup
                show Utils.getPathGo h3 (Utils.walkRead h3 cur k)
                  (k2 :: rest2) _ = v
                have hw : Utils.walkRead h3 cur k = .ref h.next := by
                  simp only [Utils.walkRead]
                  rw [hframe cur (Nat.lt_succ_of_lt hcur) hnodup.1]
                  rw [Heap.set_lookup_self]
                  show (lookupA (updateA props k (.ref h.next)) k).getD
                    (.prim .undef) = .ref h.next
                  rw [lookupA_updateA_self]
                  rfl
                rw [hw]
                exact hget (by simp) hnodup.2

theorem cloneAux_one_ref_isRef (fuel : Nat) (h : Heap) (a : Nat)
    (seen s2 : List (Nat × Nat)) (v2 : Val) (h2 : Heap)
    (hres : cloneAux fuel h (.one (.ref a) seen) = some (.one v2 h2 s2)) :
    ∃ b, v2 = .ref b := by
  match fuel with
  | 0 => exact absurd hres (by simp [cloneAux])
  | fuel + 1 =>
    simp only [cloneAux] at hres
    cases hseen : lookupA seen a with
    | some b =>
      rw [hseen] at hres
      have heq := Option.some_inj.mp hres
      injection heq with e1 _
      exact ⟨b, e1.symm⟩
    | none =>
      rw [hseen] at hres
      cases hnode : h.lookup a with
      | none => rw [hnode] at hres; exact absurd hres (by simp)
      | some nd =>
        rw [hnode] at hres
        match nd with
        | .date t =>
          simp only [Heap.alloc] at hres
          have heq := Option.some_inj.mp hres
          injection heq with e1 _
          exact ⟨h.next, e1.symm⟩
        | .regexp src flags =>
          simp only [Heap.alloc] at hres
          have heq := Option.some_inj.mp hres
          injection heq with e1 _
          exact ⟨h.next, e1.symm⟩
        | .arr es =>
          simp only [Heap.alloc] at hres
          cases hsub : cloneAux fuel ⟨h.next + 1, (h.next, .arr []) :: h.mem⟩
              (.many es ((a, h.next) :: seen)) with
          | none => rw [hsub] at hres; exact absurd hres (by simp)
          | some r2 =>
            rw [hsub] at hres
            match r2 with
            | .one _ _ _ => exact absurd hres (by simp)
            | .props _ _ _ => exact absurd hres (by simp)
            | .many es2 h3 s3 =>
              simp only at hres
              have heq := Option.some_inj.mp hres
              injection heq with e1 _
              exact ⟨h.next, e1.symm⟩
        | .obj pr props sym hid =>
          simp only [Heap.alloc] at hres
          cases hsub : cloneAux fuel
              ⟨h.next + 1, (h.next, .obj .plain [] [] []) :: h.mem⟩
              (.props props ((a, h.next) :: seen)) with
          | none => rw [hsub] at hres; exact absurd hres (by simp)
          | some r2 =>
            rw [hsub] at hres
            match r2 with
            | .one _ _ _ => exact absurd hres (by simp)
            | .many _ _ _ => exact absurd hres (by simp)
            | .props ps2 h3 s3 =>
              simp only at hres
              have heq := Option.some_inj.mp hres
              injection heq with e1 _
              exact ⟨h.next, e1.symm⟩

/-- C5 (amended): `updateAt` (`updateNested` with default options) first
deep-clones `obj` and then writes through the clone, so the original
object graph is never touched (every source address keeps its node) and
the returned root is a fresh object, never `obj` itself or any source
object.  The written value is readable back at the path whenever the
write walk visits pairwise-distinct containers — which covers every
acyclic `obj` and nonempty path; a cyclic `obj` whose path walk revisits
a container can instead overwrite an earlier link, so the read-back
clause of the original claim fails there (see the counterexample). -/
theorem claim5_updateAt_immutable_amended
    (env : Bool) (fuel : Nat) (h : Heap) (a : Nat) (pa : Utils.PathArg)
    (v rv : Val) (h1 h' : Heap) (visited : List Nat)
    (hwf : h.WF)
    (hclone : deepClone env fuel h (.ref a) CloneOptions.default =
      some (rv, h1))
    (htrace : Utils.setPathNavT h1 rv (Utils.parsePath pa) v =
      some (h', visited)) :
    updateNested env fuel h (.ref a) pa v true = some (rv, h') ∧
    (∀ x, x < h.next → h'.lookup x = h.lookup x) ∧
    (∃ b, rv = .ref b ∧ h.lookup b = none) ∧
    (Utils.parsePath pa ≠ [] → visited.Nodup →
      Utils.getPath h' rv pa (.prim .undef) = v) := by
  have hrun : updateNested env fuel h (.ref a) pa v true = some (rv, h') := by
    simp only [updateNested, if_pos, hclone, Utils.setPath,
      Utils.setPathNav, htrace, Option.map_some']
  have hbc : deepCloneBelowCutoff env fuel h (.ref a) .auto =
      some (rv, h1) := hclone
  simp only [deepCloneBelowCutoff, Types.isPrimitive, Bool.false_eq_true,
    if_false] at hbc
  cases hrc : RecursiveStrategy.clone fuel h (.ref a) [] with
  | none => rw [hrc] at hbc; exact absurd hbc (by simp)
  | some t =>
    rw [hrc] at hbc
    obtain ⟨v2, h2, μ⟩ := t
    simp only at hbc
    have heq := Option.some_inj.mp hbc
    injection heq with e1 e2
    subst e1; subst e2
    simp only [RecursiveStrategy.clone] at hrc
    cases hca : cloneAux fuel h (.one (.ref a) []) with
    | none => rw [hca] at hrc; exact absurd hrc (by simp)
    | some res =>
      rw [hca] at hrc
      match res with
      | .many _ _ _ => exact absurd hrc (by simp)
      | .props _ _ _ => exact absurd hrc (by simp)
      | .one v2' h2' μ' =>
        simp only at hrc
        have heq := Option.some_inj.mp hrc
        injection heq with e1 e23
        injection e23 with e2 e3
        subst e1; subst e2; subst e3
        have hpre : PreOK h.next h [] := by
          refine ⟨hwf, le_refl _, ?_, ?_⟩
          · intro q hq; simp at hq
          · intro p hp hge
            exact absurd (hwf.2 p hp) (not_lt_of_le hge)
        obtain ⟨hF, hHigh⟩ := cloneAux_frame h.next fuel h _ _ hca hpre
        obtain ⟨b, hb⟩ := cloneAux_one_ref_isRef fuel h a [] μ' v2' h2' hca
        subst hb
        have hbhigh : h.next ≤ b := hHigh
        obtain ⟨hmono2, hwf2, hframe2, hhigh2, hget2⟩ :=
          setPathNavT_spec (Utils.parsePath pa) h2' b v h' visited htrace
            hF.2.2.1
        refine ⟨hrun, ?_, ⟨b, rfl, h.lookup_none_of_ge hwf hbhigh⟩, ?_⟩
        · intro x hx
          have hxvis : x ∉ visited := by
            intro hmem
            have := hhigh2 h.next hF.1 hF.2.2.2.1 hbhigh x hmem
            exact absurd (lt_of_lt_of_le hx this) (lt_irrefl _)
          rw [hframe2 x (lt_of_lt_of_le hx hF.1) hxvis]
          exact hF.2.1 x hx
        · intro hne hnodup
          exact hget2 hne hnodup

/-- C5 counterexample: for the cyclic `obj = {x: obj}` and path `'x.x'`,
`updateAt(obj, 'x.x', 7)` leaves the original untouched and returns a new
object — but the result does *not* carry 7 at path `'x.x'`: the walk
visits the same (cloned) container twice, the final write replaces the
`x` self-link with 7, and reading `'x.x'` back yields `undefined`.  The
claim asserts the read-back for *every* keyed container and path. -/
theorem claim5_updateAt_counterexample :
    updateNested false 10 ⟨1, [(0, .obj .plain [("x", .ref 0)] [] [])]⟩
      (.ref 0) (.str "x.x") (.prim (.num 7)) true =
      some (.ref 1,
        ⟨2, [(1, .obj .plain [("x", .prim (.num 7))] [] []),
             (0, .obj .plain [("x", .ref 0)] [] [])]⟩) ∧
    Utils.getPath
      ⟨2, [(1, .obj .plain [("x", .prim (.num 7))] [] []),
           (0, .obj .plain [("x", .ref 0)] [] [])]⟩
      (.ref 1) (.str "x.x") (.prim .undef) = .prim .undef ∧
    (Val.prim .undef : Val) ≠ .prim (.num 7) := by
  refine ⟨by decide, by decide, by decide⟩

/-- Witness for C5 at `{a:{b:1}}`, path `'a.b'`, value 2: the run
succeeds, every original node is untouched (so the original's `a.b` is
still 1), the result is a fresh object, and the result reads back 2 at
`'a.b'`. -/
theorem claim5_updateAt_immutable_amended_witness :
    updateNested false 10 nestedHeap (.ref 0) (.str "a.b")
      (.prim (.num 2)) true =
      some (.ref 2,
        ⟨4, [(3, .obj .plain [("b", .prim (.num 2))] [] []),
             (2, .obj .plain [("a", .ref 3)] [] []),
             (0, .obj .plain [("a", .ref 1)] [] []),
             (1, .obj .plain [("b", .prim (.num 1))] [] [])]⟩) ∧
    (∀ x, x < nestedHeap.next →
      Heap.lookup ⟨4, [(3, .obj .plain [("b", .prim (.num 2))] [] []),
             (2, .obj .plain [("a", .ref 3)] [] []),
             (0, .obj .plain [("a", .ref 1)] [] []),
             (1, .obj .plain [("b", .prim (.num 1))] [] [])]⟩ x =
        nestedHeap.lookup x) ∧
    (∃ b, (Val.ref 2 : Val) = .ref b ∧ nestedHeap.lookup b = none) ∧
    (Utils.parsePath (.str "a.b") ≠ [] → ([2, 3] : List Nat).Nodup →
      Utils.getPath ⟨4, [(3, .obj .plain [("b", .prim (.num 2))] [] []),
             (2, .obj .plain [("a", .ref 3)] [] []),
             (0, .obj .plain [("a", .ref 1)] [] []),
             (1, .obj .plain [("b", .prim (.num 1))] [] [])]⟩
        (.ref 2) (.str "a.b") (.prim .undef) = .prim (.num 2)) :=
  claim5_updateAt_immutable_amended false 10 nestedHeap 0 (.str "a.b")
    (.prim (.num 2)) (.ref 2)
    ⟨4, [(3, .obj .plain [("b", .prim (.num 1))] [] []),
         (2, .obj .plain [("a", .ref 3)] [] []),
         (0, .obj .plain [("a", .ref 1)] [] []),
         (1, .obj .plain [("b", .prim (.num 1))] [] [])]⟩
    ⟨4, [(3, .obj .plain [("b", .prim (.num 2))] [] []),
         (2, .obj .plain [("a", .ref 3)] [] []),
         (0, .obj .plain [("a", .ref 1)] [] []),
         (1, .obj .plain [("b", .prim (.num 1))] [] [])]⟩
    [2, 3] (by decide) (by decide) (by decide)

/-- C6: `updateAllAt` (`updateMultiple`) clones once and folds every
write over that single clone in iteration order (first conjunct: the
run is definitionally one default clone followed by the in-order
`applyUpdates` fold, whose step applies `Utils.setPath` to the same
result object and continues with the updated heap).  Consequently later
entries win on overlapping paths: on the spec fixture
`updateAllAt({}, {'a':1, 'a.b':2})`, the second write replaces the
non-object `1` at `a` with a fresh `{}` before setting `b`, and the final
shape is `{a:{b:2}}`. -/
theorem claim6_updateAllAt_single_clone_in_order :
    (∀ (env : Bool) (fuel : Nat) (h : Heap) (obj : Val)
      (updates : List (String × Val)),
      updateMultiple env fuel h obj updates true =
        (match deepClone env fuel h obj CloneOptions.default with
         | none => none
         | some (result, h1) => applyUpdates h1 result updates)) ∧
    (∀ (h : Heap) (result : Val) (p : String) (v : Val)
      (rest : List (String × Val)),
      applyUpdates h result ((p, v) :: rest) =
        (match Utils.setPath h result (.str p) v with
         | some (_, h1) => applyUpdates h1 result rest
         | none => none)) ∧
    updateMultiple false 10 ⟨1, [(0, .obj .plain [] [] [])]⟩ (.ref 0)
      [("a", .prim (.num 1)), ("a.b", .prim (.num 2))] true =
      some (.ref 1,
        ⟨3, [(2, .obj .plain [("b", .prim (.num 2))] [] []),
             (1, .obj .plain [("a", .ref 2)] [] []),
             (0, .obj .plain [] [] [])]⟩) ∧
    Utils.getPath
      ⟨3, [(2, .obj .plain [("b", .prim (.num 2))] [] []),
           (1, .obj .plain [("a", .ref 2)] [] []),
           (0, .obj .plain [] [] [])]⟩
      (.ref 1) (.str "a.b") (.prim .undef) = .prim (.num 2) := by
  refine ⟨?_, ?_, by decide, by decide⟩
  · intro env fuel h obj updates
    rfl
  · intro h result p v rest
    rfl

/-- C8: `deepMerge` does *not* clone Date and RegExp source values — it
assigns them by reference.  Merging `{d: date, r: regexp}` into `{}`
yields a result whose `d` is the very address of the source's Date
(address 2, allocated in the source heap and holding the Date node) and
whose `r` is the source's RegExp address, not fresh instances; they are,
as the claim says, never merged field-by-field, but the "fresh clone"
half of the claim — also asserted by the source's own JSDoc ("Dates:
cloned from source", "special objects are cloned by deepClone") — is
false. -/
theorem claim8_merge_assigns_date_regexp_by_reference :
    deepMerge false 10
      ⟨4, [(0, .obj .plain [] [] []),
           (1, .obj .plain [("d", .ref 2), ("r", .ref 3)] [] []),
           (2, .date 0), (3, .regexp "x" "g")]⟩
      (.ref 0) (.ref 1) .replace =
      some (.ref 4,
        ⟨5, [(4, .obj .plain [("d", .ref 2), ("r", .ref 3)] [] []),
             (0, .obj .plain [] [] []),
             (1, .obj .plain [("d", .ref 2), ("r", .ref 3)] [] []),
             (2, .date 0), (3, .regexp "x" "g")]⟩) ∧
    Heap.lookup
      ⟨4, [(0, .obj .plain [] [] []),
           (1, .obj .plain [("d", .ref 2), ("r", .ref 3)] [] []),
           (2, .date 0), (3, .regexp "x" "g")]⟩ 2 = some (.date 0) ∧
    Heap.lookup
      ⟨4, [(0, .obj .plain [] [] []),
           (1, .obj .plain [("d", .ref 2), ("r", .ref 3)] [] []),
           (2, .date 0), (3, .regexp "x" "g")]⟩ 3 =
      some (.regexp "x" "g") := by
  refine ⟨by decide, by decide, by decide⟩

theorem cloneAux_one_prim (fuel : Nat) (h : Heap) (p : Prim)
    (seen : List (Nat × Nat)) (res : CloneRes)
    (hres : cloneAux fuel h (.one (.prim p) seen) = some res) :
    res = .one (.prim p) h seen := by
  match fuel with
  | 0 => exact absurd hres (by simp [cloneAux])
  | fuel + 1 =>
    simp only [cloneAux] at hres
    exact (Option.some_inj.mp hres).symm

theorem cloneAux_many_prims : ∀ (fuel : Nat) (h : Heap) (es : List Val)
    (seen : List (Nat × Nat)) (res : CloneRes),
    (∀ e ∈ es, Types.isPrimitive e = true) →
    cloneAux fuel h (.many es seen) = some res →
    res = .many es h seen := by
  intro fuel
  induction fuel with
  | zero =>
    intro h es seen res _ hres
    exact absurd hres (by simp [cloneAux])
  | succ fuel ih =>
    intro h es seen res hprim hres
    match es with
    | [] =>
      simp only [cloneAux] at hres
      exact (Option.some_inj.mp hres).symm
    | e :: rest =>
      match e with
      | .ref a =>
        exact absurd (hprim (.ref a) (List.mem_cons_self _ _))
          (by simp [Types.isPrimitive])
      | .prim p =>
        simp only [cloneAux] at hres
        cases hhead : cloneAux fuel h (.one (.prim p) seen) with
        | none => rw [hhead] at hres; exact absurd hres (by simp)
        | some r1 =>
          rw [hhead] at hres
          have hr1 := cloneAux_one_prim fuel h p seen r1 hhead
          subst hr1
          simp only at hres
          cases hsub : cloneAux fuel h (.many rest seen) with
          | none => rw [hsub] at hres; exact absurd hres (by simp)
          | some r2 =>
            rw [hsub] at hres
            have hr2 := ih h rest seen r2
              (fun w hw => hprim w (List.mem_cons_of_mem _ hw)) hsub
            subst hr2
            simp only at hres
            exact (Option.some_inj.mp hres).symm

theorem cloneAux_one_prim_arr (fuel : Nat) (h : Heap) (aa : Nat)
    (es : List Val) (seen : List (Nat × Nat)) (res : CloneRes)
    (hnode : h.lookup aa = some (.arr es))
    (hprim : ∀ e ∈ es, Types.isPrimitive e = true)
    (hseen : lookupA seen aa = none)
    (hres : cloneAux fuel h (.one (.ref aa) seen) = some res) :
    res = .one (.ref h.next) ⟨h.next + 1, (h.next, .arr es) :: h.mem⟩
      ((aa, h.next) :: seen) := by
  match fuel with
  | 0 => exact absurd hres (by simp [cloneAux])
  | fuel + 1 =>
    simp only [cloneAux, hseen, hnode, Heap.alloc] at hres
    cases hsub : cloneAux fuel ⟨h.next + 1, (h.next, .arr []) :: h.mem⟩
        (.many es ((aa, h.next) :: seen)) with
    | none => rw [hsub] at hres; exact absurd hres (by simp)
    | some r2 =>
      rw [hsub] at hres
      have hr2 := cloneAux_many_prims fuel _ es _ _ hprim hsub
      subst hr2
      simp only at hres
      rw [← Option.some_inj.mp hres]
      show CloneRes.one (.ref h.next)
        (Heap.set ⟨h.next + 1, (h.next, .arr []) :: h.mem⟩ h.next (.arr es))
        ((aa, h.next) :: seen) = _
      simp [Heap.set, updateA]

theorem cloneAux_props_nil (fuel : Nat) (h : Heap)
    (seen : List (Nat × Nat)) (res : CloneRes)
    (hres : cloneAux fuel h (.props [] seen) = some res) :
    res = .props [] h seen := by
  match fuel with
  | 0 => exact absurd hres (by simp [cloneAux])
  | fuel + 1 =>
    simp only [cloneAux] at hres
    exact (Option.some_inj.mp hres).symm

theorem cloneAux_single_obj (fuel : Nat) (h : Heap) (t₀ ta : Nat)
    (k : String) (prT : ProtoTag) (symT : List (Nat × Val))
    (hidT : List (String × Val)) (tEls : List Val) (res : CloneRes)
    (hwf : h.WF)
    (hnodeT : h.lookup t₀ = some (.obj prT [(k, .ref ta)] symT hidT))
    (hnodeTA : h.lookup ta = some (.arr tEls))
    (hprim : ∀ e ∈ tEls, Types.isPrimitive e = true)
    (hres : cloneAux fuel h (.one (.ref t₀) []) = some res) :
    res = .one (.ref h.next)
      ⟨h.next + 2, (h.next + 1, .arr tEls) ::
        (h.next, .obj .plain [(k, .ref (h.next + 1))] [] []) :: h.mem⟩
      [(ta, h.next + 1), (t₀, h.next)] := by
  have hta : ta < h.next :=
    h.lt_next_of_lookup_isSome hwf (by rw [hnodeTA]; rfl)
  have htane : ta ≠ t₀ := by
    intro he
    rw [he, hnodeT] at hnodeTA
    exact Node.noConfusion (Option.some_inj.mp hnodeTA)
  match fuel with
  | 0 => exact absurd hres (by simp [cloneAux])
  | fuel + 1 =>
    simp only [cloneAux, lookupA, hnodeT, Heap.alloc] at hres
    cases hps : cloneAux fuel ⟨h.next + 1, (h.next, .obj .plain [] [] []) :: h.mem⟩
        (.props [(k, .ref ta)] [(t₀, h.next)]) with
    | none => rw [hps] at hres; exact absurd hres (by simp)
    | some r =>
      rw [hps] at hres
      match fuel, hps with
      | 0, hps => exact absurd hps (by simp [cloneAux])
      | fuel + 1, hps =>
        simp only [cloneAux] at hps
        cases hone : cloneAux fuel
            ⟨h.next + 1, (h.next, .obj .plain [] [] []) :: h.mem⟩
            (.one (.ref ta) [(t₀, h.next)]) with
        | none => rw [hone] at hps; exact absurd hps (by simp)
        | some r1 =>
          rw [hone] at hps
          have hr1 := cloneAux_one_prim_arr fuel _ ta tEls _ r1
            (by show lookupA _ ta = _
                simp only [lookupA]
                rw [if_neg (Nat.ne_of_gt hta)]
                exact hnodeTA)
            hprim
            (by simp only [lookupA]
                rw [if_neg (fun he => htane he.symm)])
            hone
          subst hr1
          simp only at hps
          cases htl : cloneAux fuel
              ⟨h.next + 1 + 1, (h.next + 1, .arr tEls) ::
                (h.next, .obj .plain [] [] []) :: h.mem⟩
              (.props [] ((ta, h.next + 1) :: [(t₀, h.next)])) with
          | none => rw [htl] at hps; exact absurd hps (by simp)
          | some r2 =>
            rw [htl] at hps
            have hr2 := cloneAux_props_nil fuel _ _ r2 htl
            subst hr2
            simp only at hps
            have hr := Option.some_inj.mp hps
            subst hr
            simp only at hres
            rw [← Option.some_inj.mp hres]
            show CloneRes.one (.ref h.next)
              (Heap.set ⟨h.next + 1 + 1, (h.next + 1, .arr tEls) ::
                (h.next, .obj .plain [] [] []) :: h.mem⟩ h.next
                (.obj .plain [(k, .ref (h.next + 1))] [] [])) _ = _
            simp only [Heap.set, updateA,
              if_neg (Nat.succ_ne_self h.next), if_pos]

theorem deepClone_auto_eq (env : Bool) (fuel : Nat) (h : Heap) (a : Nat) :
    deepClone env fuel h (.ref a) CloneOptions.default =
      (match cloneAux fuel h (.one (.ref a) []) with
       | some (.one v2 h2 _) => some (v2, h2)
       | _ => none) := by
  show deepCloneBelowCutoff env fuel h (.ref a) .auto = _
  simp only [deepCloneBelowCutoff, Types.isPrimitive, Bool.false_eq_true,
    if_false, RecursiveStrategy.clone]
  cases hca : cloneAux fuel h (.one (.ref a) []) with
  | none => rfl
  | some res =>
    match res with
    | .one v2 h2 s2 => rfl
    | .many _ _ _ => rfl
    | .props _ _ _ => rfl

/-- C7 (amended): for a target `{k: tEls}` and source `{k: sEls}` holding
arrays (`k`, the element lists, the object shapes and the surrounding heap
arbitrary; the target's elements primitive so its preparatory deep clone
is the identity on them), `deepMerge` under the default `replace` strategy
sets the result's `k` to a fresh array holding the clone of the source
array (with primitive source elements, exactly the source's values);
under `merge` it sets `k` to a fresh array holding the target's elements
followed by the source's element values *copied by reference* — the very
values `sEls`, whatever they are, with no cloning (the refuted half of the
original claim: a source object element appears as itself, not as a fresh
clone).  The full output heaps are pinned down: the result root is the
fresh clone of the target, its `k` points at the fresh array at address
`h.next + 2` (unallocated in the source heap), and no source node is
modified. -/
theorem claim7_merge_array_strategies
    (env : Bool) (fuel : Nat) (h : Heap) (t₀ ta s₀ sa : Nat) (k : String)
    (prT prS : ProtoTag) (symT symS : List (Nat × Val))
    (hidT hidS : List (String × Val)) (tEls sEls : List Val)
    (hwf : h.WF)
    (hnodeT : h.lookup t₀ = some (.obj prT [(k, .ref ta)] symT hidT))
    (hnodeTA : h.lookup ta = some (.arr tEls))
    (hnodeS : h.lookup s₀ = some (.obj prS [(k, .ref sa)] symS hidS))
    (hnodeSA : h.lookup sa = some (.arr sEls))
    (hprimT : ∀ e ∈ tEls, Types.isPrimitive e = true) :
    ((∀ e ∈ sEls, Types.isPrimitive e = true) →
      ∀ res, deepMerge env fuel h (.ref t₀) (.ref s₀) .replace = some res →
      res = (.ref h.next,
        ⟨h.next + 3, (h.next + 2, .arr sEls) :: (h.next + 1, .arr tEls) ::
          (h.next, .obj .plain [(k, .ref (h.next + 2))] [] []) ::
          h.mem⟩)) ∧
    (∀ res, deepMerge env fuel h (.ref t₀) (.ref s₀) .merge = some res →
      res = (.ref h.next,
        ⟨h.next + 3, (h.next + 2, .arr (tEls ++ sEls)) ::
          (h.next + 1, .arr tEls) ::
          (h.next, .obj .plain [(k, .ref (h.next + 2))] [] []) ::
          h.mem⟩)) ∧
    h.lookup (h.next + 2) = none := by
  have hs₀ : s₀ < h.next :=
    h.lt_next_of_lookup_isSome hwf (by rw [hnodeS]; rfl)
  have hsa : sa < h.next :=
    h.lt_next_of_lookup_isSome hwf (by rw [hnodeSA]; rfl)
  have key : ∀ (strat : ArrayStrategy) res,
      deepMerge env fuel h (.ref t₀) (.ref s₀) strat = some res →
      ∃ hm, mergeAux env strat fuel
          ⟨h.next + 2, (h.next + 1, .arr tEls) ::
            (h.next, .obj .plain [(k, .ref (h.next + 1))] [] []) :: h.mem⟩
          (.into (.ref h.next) (.ref s₀)) = some hm ∧
        res = (.ref h.next, hm) := by
    intro strat res hrun
    simp only [deepMerge] at hrun
    cases hca : cloneAux fuel h (.one (.ref t₀) []) with
    | none =>
      rw [deepClone_auto_eq, hca] at hrun
      exact absurd hrun (by simp)
    | some r0 =>
      have hr0 := cloneAux_single_obj fuel h t₀ ta k prT symT hidT tEls r0
        hwf hnodeT hnodeTA hprimT hca
      subst hr0
      rw [deepClone_auto_eq, hca] at hrun
      simp only at hrun
      cases hma : mergeAux env strat fuel
          ⟨h.next + 2, (h.next + 1, .arr tEls) ::
            (h.next, .obj .plain [(k, .ref (h.next + 1))] [] []) :: h.mem⟩
          (.into (.ref h.next) (.ref s₀)) with
      | none => rw [hma] at hrun; exact absurd hrun (by simp)
      | some hm =>
        rw [hma] at hrun
        simp only at hrun
        exact ⟨hm, rfl, (Option.some_inj.mp hrun).symm⟩
  have hls₀ : Heap.lookup
      ⟨h.next + 2, (h.next + 1, .arr tEls) ::
        (h.next, .obj .plain [(k, .ref (h.next + 1))] [] []) :: h.mem⟩ s₀ =
      some (.obj prS [(k, .ref sa)] symS hidS) := by
    show lookupA _ s₀ = _
    simp only [lookupA]
    rw [if_neg (by omega : ¬ h.next + 1 = s₀),
      if_neg (by omega : ¬ h.next = s₀)]
    exact hnodeS
  have hlsa : Heap.lookup
      ⟨h.next + 2, (h.next + 1, .arr tEls) ::
        (h.next, .obj .plain [(k, .ref (h.next + 1))] [] []) :: h.mem⟩ sa =
      some (.arr sEls) := by
    show lookupA _ sa = _
    simp only [lookupA]
    rw [if_neg (by omega : ¬ h.next + 1 = sa),
      if_neg (by omega : ¬ h.next = sa)]
    exact hnodeSA
  refine ⟨?_, ?_, h.lookup_none_of_ge hwf (by omega)⟩
  · intro hprimS res hrun
    obtain ⟨hm, hma, hres⟩ := key .replace res hrun
    subst hres
    match fuel, hma with
    | 0, hma => exact absurd hma (by simp [mergeAux])
    | f + 1, hma =>
      simp only [mergeAux, mergeSrcProps, hls₀] at hma
      match f, hma with
      | 0, hma => exact absurd hma (by simp [mergeAux])
      | f2 + 1, hma =>
        simp only [mergeAux, hlsa] at hma
        cases hca2 : cloneAux f2
            ⟨h.next + 2, (h.next + 1, .arr tEls) ::
              (h.next, .obj .plain [(k, .ref (h.next + 1))] [] []) :: h.mem⟩
            (.one (.ref sa) []) with
        | none =>
          rw [deepClone_auto_eq, hca2] at hma
          exact absurd hma (by simp)
        | some r2 =>
          have hr2 := cloneAux_one_prim_arr f2 _ sa sEls [] r2 hlsa hprimS
            (by simp [lookupA]) hca2
          subst hr2
          rw [deepClone_auto_eq, hca2] at hma
          simp only [Utils.assignProp] at hma
          rw [show Heap.lookup
              ⟨h.next + 2 + 1, (h.next + 2, .arr sEls) ::
                (h.next + 1, .arr tEls) ::
                (h.next, .obj .plain [(k, .ref (h.next + 1))] [] []) ::
                h.mem⟩ h.next =
              some (.obj .plain [(k, .ref (h.next + 1))] [] []) from by
            show lookupA _ h.next = _
            simp only [lookupA,
              if_neg (show ¬ h.next + 2 = h.next by omega),
              if_neg (show ¬ h.next + 1 = h.next by omega), if_pos]] at hma
          simp only at hma
          match f2, hma with
          | 0, hma => exact absurd hma (by simp [mergeAux])
          | f3 + 1, hma =>
            simp only [mergeAux] at hma
            have heq := Option.some_inj.mp hma
            subst heq
            show (Val.ref h.next,
              Heap.set ⟨h.next + 2 + 1, (h.next + 2, .arr sEls) ::
                (h.next + 1, .arr tEls) ::
                (h.next, .obj .plain [(k, .ref (h.next + 1))] [] []) ::
                h.mem⟩ h.next
                (.obj .plain (updateA [(k, .ref (h.next + 1))] k
                  (.ref (h.next + 2))) [] [])) = _
            simp only [Heap.set, updateA, if_pos,
              if_neg (show ¬ h.next + 2 = h.next by omega),
              if_neg (show ¬ h.next + 1 = h.next by omega)]
  · intro res hrun
    obtain ⟨hm, hma, hres⟩ := key .merge res hrun
    subst hres
    match fuel, hma with
    | 0, hma => exact absurd hma (by simp [mergeAux])
    | f + 1, hma =>
      simp only [mergeAux, mergeSrcProps, hls₀] at hma
      match f, hma with
      | 0, hma => exact absurd hma (by simp [mergeAux])
      | f2 + 1, hma =>
        simp only [mergeAux, hlsa] at hma
        rw [show mergeRead
            ⟨h.next + 2, (h.next + 1, .arr tEls) ::
              (h.next, .obj .plain [(k, .ref (h.next + 1))] [] []) :: h.mem⟩
            (.ref h.next) k = .ref (h.next + 1) from by
          simp only [mergeRead]
          rw [show Heap.lookup
              ⟨h.next + 2, (h.next + 1, .arr tEls) ::
                (h.next, .obj .plain [(k, .ref (h.next + 1))] [] []) ::
                h.mem⟩ h.next =
              some (.obj .plain [(k, .ref (h.next + 1))] [] []) from by
            show lookupA _ h.next = _
            simp only [lookupA,
              if_neg (show ¬ h.next + 1 = h.next by omega), if_pos]]
          simp [lookupA]] at hma
        simp only at hma
        rw [show Heap.lookup
            ⟨h.next + 2, (h.next + 1, .arr tEls) ::
              (h.next, .obj .plain [(k, .ref (h.next + 1))] [] []) :: h.mem⟩
            (h.next + 1) = some (.arr tEls) from by
          show lookupA _ (h.next + 1) = _
          simp [lookupA]] at hma
        simp only [Heap.alloc, Utils.assignProp] at hma
        rw [show Heap.lookup
            ⟨h.next + 2 + 1, (h.next + 2, .arr (tEls ++ sEls)) ::
              (h.next + 1, .arr tEls) ::
              (h.next, .obj .plain [(k, .ref (h.next + 1))] [] []) ::
              h.mem⟩ h.next =
            some (.obj .plain [(k, .ref (h.next + 1))] [] []) from by
          show lookupA _ h.next = _
          simp only [lookupA,
            if_neg (show ¬ h.next + 2 = h.next by omega),
            if_neg (show ¬ h.next + 1 = h.next by omega), if_pos]] at hma
        simp only at hma
        match f2, hma with
        | 0, hma => exact absurd hma (by simp [mergeAux])
        | f3 + 1, hma =>
          simp only [mergeAux] at hma
          have heq := Option.some_inj.mp hma
          subst heq
          show (Val.ref h.next,
            Heap.set ⟨h.next + 2 + 1, (h.next + 2, .arr (tEls ++ sEls)) ::
              (h.next + 1, .arr tEls) ::
              (h.next, .obj .plain [(k, .ref (h.next + 1))] [] []) ::
              h.mem⟩ h.next
              (.obj .plain (updateA [(k, .ref (h.next + 1))] k
                (.ref (h.next + 2))) [] [])) = _
          simp only [Heap.set, updateA, if_pos,
            if_neg (show ¬ h.next + 2 = h.next by omega),
            if_neg (show ¬ h.next + 1 = h.next by omega)]

/-- Fixture for C7: heap for `deepMerge({items:[1,2]}, {items:[3,4]})` —
target object at 0 with array `[1,2]` at 1, source object at 2 with array
`[3,4]` at 3. -/
def mergeFixHeap : Heap :=
  ⟨4, [(0, .obj .plain [("items", .ref 1)] [] []),
       (1, .arr [.prim (.num 1), .prim (.num 2)]),
       (2, .obj .plain [("items", .ref 3)] [] []),
       (3, .arr [.prim (.num 3), .prim (.num 4)])]⟩

/-- Witness for C7 at `deepMerge({items:[1,2]}, {items:[3,4]})`: the
`replace` strategy yields a fresh object whose `items` is a fresh array
`[3,4]`, the `merge` strategy a fresh array `[1,2,3,4]`. -/
theorem claim7_merge_array_strategies_witness :
    deepMerge false 10 mergeFixHeap (.ref 0) (.ref 2) .replace =
      some (.ref 4,
        ⟨7, (6, .arr [.prim (.num 3), .prim (.num 4)]) ::
            (5, .arr [.prim (.num 1), .prim (.num 2)]) ::
            (4, .obj .plain [("items", .ref 6)] [] []) ::
            mergeFixHeap.mem⟩) ∧
    deepMerge false 10 mergeFixHeap (.ref 0) (.ref 2) .merge =
      some (.ref 4,
        ⟨7, (6, .arr [.prim (.num 1), .prim (.num 2),
                      .prim (.num 3), .prim (.num 4)]) ::
            (5, .arr [.prim (.num 1), .prim (.num 2)]) ::
            (4, .obj .plain [("items", .ref 6)] [] []) ::
            mergeFixHeap.mem⟩) := by
  have hthm := claim7_merge_array_strategies false 10 mergeFixHeap 0 1 2 3
    "items" .plain .plain [] [] [] []
    [.prim (.num 1), .prim (.num 2)] [.prim (.num 3), .prim (.num 4)]
    (by decide) (by decide) (by decide) (by decide) (by decide)
    (by decide)
  constructor
  · cases hr : deepMerge false 10 mergeFixHeap (.ref 0) (.ref 2) .replace
      with
    | none => exact absurd hr (by decide)
    | some res => rw [hthm.1 (by decide) res hr]; rfl
  · cases hr : deepMerge false 10 mergeFixHeap (.ref 0) (.ref 2) .merge
      with
    | none => exact absurd hr (by decide)
    | some res => rw [hthm.2.1 res hr]; rfl

/-- Fixture for the C7 counterexample: heap for
`deepMerge({k:[1]}, {k:[{v:9}]}, {arrayStrategy:'merge'})` — the source's
array element is the object at address 4. -/
def mergeRefHeap : Heap :=
  ⟨5, [(0, .obj .plain [("k", .ref 1)] [] []),
       (1, .arr [.prim (.num 1)]),
       (2, .obj .plain [("k", .ref 3)] [] []),
       (3, .arr [.ref 4]),
       (4, .obj .plain [("v", .prim (.num 9))] [] [])]⟩

/-- C7 counterexample: merging `{k:[1]}` with `{k:[{v:9}]}` under
`arrayStrategy: 'merge'` puts the source's *own* element object into the
merged array — `result.k[1]` is the reference to address 4, the object
already allocated in the source heap, which the result heap still holds
unchanged.  The claim says the merged sequence holds *freshly cloned*
source elements (a fresh clone would live at an address `≥ 5`, unallocated
in the source heap); the code's merge branch is
`dest[key] = [...dest[key], ...src[key]]`, a reference copy. -/
theorem claim7_merge_clones_counterexample :
    deepMerge false 15 mergeRefHeap (.ref 0) (.ref 2) .merge =
      some (.ref 5,
        ⟨8, (7, .arr [.prim (.num 1), .ref 4]) ::
            (6, .arr [.prim (.num 1)]) ::
            (5, .obj .plain [("k", .ref 7)] [] []) :: mergeRefHeap.mem⟩) ∧
    mergeRefHeap.lookup 4 =
      some (.obj .plain [("v", .prim (.num 9))] [] []) ∧
    Heap.lookup
      ⟨8, (7, .arr [.prim (.num 1), .ref 4]) ::
          (6, .arr [.prim (.num 1)]) ::
          (5, .obj .plain [("k", .ref 7)] [] []) :: mergeRefHeap.mem⟩ 4 =
      some (.obj .plain [("v", .prim (.num 9))] [] []) := by
  refine ⟨by decide, by decide, by decide⟩
